import Mathlib

/-!
Verification of the BPE tokenizer (`src/frontend/src/lib/tokenizer.ts`) and the
generation engine (`src/frontend/src/services/AstroEngine.ts`).

Modelling conventions:
* JS `Map` objects become association lists; `mapSet`/`mapGet` mirror
  `Map.prototype.set`/`get` (set replaces in place, keeping insertion order).
* `parseInt` can return `NaN`; a parse result is `Option Int` with `none` for
  `NaN`.  JS `Map`s use SameValueZero equality, under which `NaN` equals `NaN`,
  and string interpolation renders every `NaN` as `"NaN"`, so collapsing all
  `NaN`s into the single value `none` is faithful.
* The sampler's `Float32` arithmetic is modelled over exact rationals; the
  `Math.random()` draw and `Math.exp` are passed in explicitly (`rand`, `expf`).
* Loops whose termination is by a decreasing measure are written with an
  explicit fuel argument initialised to that measure, so that every definition
  reduces inside the kernel; fuel-irrelevance lemmas recover the loop equations.
-/

set_option maxRecDepth 4096

namespace BitAstro

/-- Association-list model of a JS `Map`: `set` overwrites the value of an
existing key in place (the key keeps its insertion position) or appends a new
binding at the end, exactly like `Map.prototype.set`. -/
def mapSet {α β : Type} [DecidableEq α] : List (α × β) → α → β → List (α × β)
  | [], k, v => [(k, v)]
  | (k', v') :: rest, k, v =>
    if k' = k then (k, v) :: rest else (k', v') :: mapSet rest k v

/-- Model of `Map.prototype.get` (and, via `Option.isSome`, of `Map.prototype.has`). -/
def mapGet {α β : Type} [DecidableEq α] : List (α × β) → α → Option β
  | [], _ => none
  | (k', v') :: rest, k => if k' = k then some v' else mapGet rest k

/-- Model of JS `string.split(sep)` for a one-character separator: split at every
occurrence, keeping empty pieces. -/
def splitOnChar (sep : Char) : List Char → List (List Char)
  | [] => [[]]
  | c :: rest =>
    let r := splitOnChar sep rest
    if c = sep then [] :: r
    else (c :: r.headD []) :: r.tail

/-- Digit-folding helper for `parseIntJS`: consume leading decimal digits,
returning `none` when no digit was consumed (JS `NaN`). -/
def parseDigits : List Char → Option Nat → Option Nat
  | [], acc => acc
  | c :: rest, acc =>
    if c.isDigit then parseDigits rest (some ((acc.getD 0) * 10 + (c.toNat - 48)))
    else acc

/-- Model of JS `parseInt(token)` as used by `BPETokenizer.load`: an optional
sign followed by leading decimal digits; any token with no leading digit yields
`NaN` (`none`), and trailing junk after the digits is ignored.  (The radix-prefix
and whitespace-skipping corners of `parseInt`, which merge-rule tokens split on
single spaces never exercise, are omitted.) -/
def parseIntJS (l : List Char) : Option Int :=
  match l with
  | '-' :: rest => (parseDigits rest none).map (fun n => -(n : Int))
  | '+' :: rest => (parseDigits rest none).map (fun n => (n : Int))
  | _ => (parseDigits l none).map (fun n => (n : Int))

/-- Key of the `merges` map: the parsed pair `(p0, p1)`; `none` components model
`NaN` keys such as the `"NaN,NaN"` string key produced by unparsable tokens. -/
abbrev MKey := Option Int × Option Int

/-- A vocabulary byte sequence. -/
abbrev Bytes := List Nat

/-- State of `BPETokenizer`: the merge table, the id-to-bytes vocabulary, the
cached vocabulary size and the encode cache, mirroring the four fields of the
class. -/
structure BPETokenizer where
  merges : List (MKey × Option Int)
  vocab : List (Option Int × Bytes)
  vocabSize : Nat
  cache : List (String × List Int)
deriving DecidableEq, Repr

/-- The constructor's base vocabulary: ids 0 through 255 each map to the
single-byte sequence `[i]`. -/
def initVocab : List (Option Int × Bytes) :=
  (List.range 256).map (fun i => (some (Int.ofNat i), [i]))

/-- A freshly constructed `BPETokenizer`. -/
def BPETokenizer.mkNew : BPETokenizer :=
  { merges := [], vocab := initVocab, vocabSize := 256, cache := [] }

/-- JS `!line.trim()`: the line is empty or all whitespace. -/
def lineBlank (l : List Char) : Bool :=
  l.all (fun c => c.isWhitespace)

/-- One iteration of the line loop in `BPETokenizer.load`: skip blank lines and
lines that do not split into exactly three tokens; otherwise parse the three
tokens (possibly to `NaN`), register the pair in the merge table, and extend the
vocabulary when both constituent ids are present in it. -/
def processLine (t : BPETokenizer) (line : List Char) : BPETokenizer :=
  if lineBlank line then t
  else if (splitOnChar ' ' line).length ≠ 3 then t
  else
    { t with
      merges := mapSet t.merges
        (parseIntJS ((splitOnChar ' ' line).getD 0 []),
         parseIntJS ((splitOnChar ' ' line).getD 1 []))
        (parseIntJS ((splitOnChar ' ' line).getD 2 [])),
      vocab :=
        match mapGet t.vocab (parseIntJS ((splitOnChar ' ' line).getD 0 [])),
              mapGet t.vocab (parseIntJS ((splitOnChar ' ' line).getD 1 [])) with
        | some v0, some v1 =>
            mapSet t.vocab (parseIntJS ((splitOnChar ' ' line).getD 2 [])) (v0 ++ v1)
        | _, _ => t.vocab }

/-- Body of `BPETokenizer.load` once the resource text has arrived: process the
lines of `text.split('\n')` in order, then set `vocabSize` to `256 + merges.size`
(the association list is built only through `mapSet`, so its length is the map's
size). -/
def loadText (t : BPETokenizer) (text : String) : BPETokenizer :=
  let t1 := (splitOnChar '\n' text.data).foldl processLine t
  { t1 with vocabSize := 256 + t1.merges.length }

/-- Model of `BPETokenizer.load`.  The argument is `none` when the fetch throws
or the response is not ok (the resource is unreachable or unreadable), and
`some text` when the resource body was read.  The entire body runs inside
`try { ... } catch (e) { console.error(...) }`: a failure is logged and
swallowed, so the returned promise always resolves — the function never
produces `Except.error`, and on failure the state is returned untouched. -/
def BPETokenizer.load (t : BPETokenizer) (res : Option String) :
    Except String BPETokenizer :=
  match res with
  | none => Except.ok t
  | some text => Except.ok (loadText t text)

/-- UTF-8 encoding of one character (the `TextEncoder` byte layout). -/
def utf8EncodeChar (c : Char) : Bytes :=
  let n := c.toNat
  if n < 0x80 then [n]
  else if n < 0x800 then [0xC0 + n / 64, 0x80 + n % 64]
  else if n < 0x10000 then
    [0xE0 + n / 4096, 0x80 + (n / 64) % 64, 0x80 + n % 64]
  else
    [0xF0 + n / 262144, 0x80 + (n / 4096) % 64, 0x80 + (n / 64) % 64, 0x80 + n % 64]

/-- Model of `new TextEncoder().encode(text)`. -/
def utf8Encode (s : String) : Bytes :=
  (s.data.map utf8EncodeChar).flatten

/-- The Unicode replacement character emitted by a non-fatal `TextDecoder`. -/
def replChar : Char := Char.ofNat 0xFFFD

/-- Decode one code point for `utf8DecodeList`: given the lead byte and the
remaining bytes, return the decoded character and how many continuation bytes
were consumed.  Valid sequences (including the overlong and surrogate range
checks) decode exactly as `TextDecoder('utf-8')`; malformed input yields U+FFFD
without consuming continuation bytes, approximating the WHATWG error recovery
(which the repository never exercises and no theorem below depends on). -/
def utf8Decode1 (b : Nat) (rest : Bytes) : Char × Nat :=
  if b < 0x80 then (Char.ofNat b, 0)
  else if b < 0xC2 then (replChar, 0)
  else if b < 0xE0 then
    match rest with
    | c :: _ =>
      if 0x80 ≤ c ∧ c < 0xC0 then (Char.ofNat ((b % 32) * 64 + c % 64), 1)
      else (replChar, 0)
    | _ => (replChar, 0)
  else if b < 0xF0 then
    match rest with
    | c :: d :: _ =>
      if (if b = 0xE0 then 0xA0 ≤ c ∧ c < 0xC0
          else if b = 0xED then 0x80 ≤ c ∧ c < 0xA0
          else 0x80 ≤ c ∧ c < 0xC0) ∧ 0x80 ≤ d ∧ d < 0xC0 then
        (Char.ofNat ((b % 16) * 4096 + (c % 64) * 64 + d % 64), 2)
      else (replChar, 0)
    | _ => (replChar, 0)
  else if b < 0xF5 then
    match rest with
    | c :: d :: e :: _ =>
      if (if b = 0xF0 then 0x90 ≤ c ∧ c < 0xC0
          else if b = 0xF4 then 0x80 ≤ c ∧ c < 0x90
          else 0x80 ≤ c ∧ c < 0xC0) ∧ 0x80 ≤ d ∧ d < 0xC0 ∧ 0x80 ≤ e ∧ e < 0xC0 then
        (Char.ofNat ((b % 8) * 262144 + (c % 64) * 4096 + (d % 64) * 64 + e % 64), 3)
      else (replChar, 0)
    | _ => (replChar, 0)
  else (replChar, 0)

/-- Fuel-indexed byte-stream decoder; each step consumes at least the lead byte,
so `l.length` fuel always suffices. -/
def utf8DecodeListF : Nat → Bytes → List Char
  | _, [] => []
  | 0, _ :: _ => []
  | fuel + 1, b :: rest =>
    let r := utf8Decode1 b rest
    r.1 :: utf8DecodeListF fuel (rest.drop r.2)

/-- Model of `new TextDecoder('utf-8', { fatal: false }).decode(bytes)`. -/
def utf8DecodeList (l : Bytes) : List Char :=
  utf8DecodeListF l.length l

/-- Model of `getStats`: the insertion-ordered map counting adjacent pairs of
the working sequence. -/
def getStats (ids : List Int) : List ((Int × Int) × Nat) :=
  (ids.zip ids.tail).foldl (fun m p => mapSet m p ((mapGet m p).getD 0 + 1)) []

/-- The pair-selection loop inside `BPETokenizer.encode`: iterate over the stats
map in insertion order and keep the pair whose registered merge index is
strictly smallest so far; `none` models `bestPair === null` (with
`minIdx === Infinity`).  A merge-table entry whose value is `NaN` (`none`) is
never selected because `NaN < minIdx` is false in JS. -/
def findBest (merges : List (MKey × Option Int)) (stats : List ((Int × Int) × Nat)) :
    Option ((Int × Int) × Int) :=
  stats.foldl
    (fun acc pc =>
      match mapGet merges (some pc.1.1, some pc.1.2) with
      | some (some idx) =>
        match acc with
        | none => some (pc.1, idx)
        | some best => if idx < best.2 then some (pc.1, idx) else acc
      | _ => acc)
    none

/-- Model of the private `merge` method: one left-to-right pass replacing every
non-overlapping occurrence of `p` by `idx` (on a match advance by two, otherwise
emit the current id and advance by one). -/
def mergeRun (p : Int × Int) (idx : Int) : List Int → List Int
  | a :: b :: rest =>
    if a = p.1 ∧ b = p.2 then idx :: mergeRun p idx rest
    else a :: mergeRun p idx (b :: rest)
  | l => l

/-- Fuel-indexed form of the `while (ids.length >= 2)` merge loop of `encode`;
every executed round strictly shortens the sequence, so `ids.length` fuel always
suffices (`encodeLoopF_fuel` below). -/
def encodeLoopF (merges : List (MKey × Option Int)) : Nat → List Int → List Int
  | 0, ids => ids
  | fuel + 1, ids =>
    if 2 ≤ ids.length then
      match findBest merges (getStats ids) with
      | none => ids
      | some best => encodeLoopF merges fuel (mergeRun best.1 best.2 ids)
    else ids

/-- The merge loop of `BPETokenizer.encode` on a working id sequence. -/
def encodeLoop (merges : List (MKey × Option Int)) (ids : List Int) : List Int :=
  encodeLoopF merges ids.length ids

/-- Pure value computed by `BPETokenizer.encode` on a cache miss: UTF-8 bytes of
the text, then the merge loop. -/
def encodeIds (t : BPETokenizer) (text : String) : List Int :=
  encodeLoop t.merges ((utf8Encode text).map Int.ofNat)

/-- Model of `BPETokenizer.encode`: return the cached array on a hit, otherwise
compute, memoize and return.  The returned id list is the very object stored in
the cache (JS returns the array by reference); state threading makes the cache
write explicit. -/
def BPETokenizer.encode (t : BPETokenizer) (text : String) : List Int × BPETokenizer :=
  match mapGet t.cache text with
  | some ids => (ids, t)
  | none =>
    let ids := encodeIds t text
    (ids, { t with cache := mapSet t.cache text ids })

/-- Model of `BPETokenizer.decode`: look up each id in the vocabulary (silently
skipping unknown ids), concatenate the byte sequences in order, and decode the
result as non-fatal UTF-8. -/
def BPETokenizer.decode (t : BPETokenizer) (ids : List Int) : String :=
  String.mk (utf8DecodeList ((ids.filterMap (fun id => mapGet t.vocab (some id))).flatten))

/-- Effect of one `AstroEngine._generate` call on the tokenizer state.  In the
JS code `tokens` is the very array returned by `encode(prompt)` — the object
stored in (or fetched from) `this.cache` — so every `tokens.push(nextToken)` in
the decode loop mutates the cache entry for `prompt` in place.  `sampled` lists
the token ids pushed during the call. -/
def generateTokenizerEffect (t : BPETokenizer) (prompt : String) (sampled : List Int) :
    BPETokenizer :=
  let r := t.encode prompt
  { r.2 with cache := mapSet r.2.cache prompt (r.1 ++ sampled) }

/-- Temperature scaling in `AstroEngine.sample`: every logit is divided by
`Math.max(temperature, 1e-8)`. -/
def scaledOf (logits : List ℚ) (temperature : ℚ) : List ℚ :=
  logits.map (fun x => x / max temperature (1 / 100000000))

/-- The index array of `sample` after the descending stable sort by scaled
score; the JS comparator `(a, b) => scaledLogits[b] - scaledLogits[a]` orders
higher scores first. -/
def sortedIndices (scaled : List ℚ) : List Nat :=
  (List.range scaled.length).mergeSort
    (fun a b => decide (scaled.getD b 0 ≤ scaled.getD a 0))

/-- Top-K filtering: when `0 < topK < logits.length`, entries outside the first
`topK` sorted indices are suppressed to negative infinity, modelled as `none`;
otherwise no filtering happens. -/
def filteredOf (scaled : List ℚ) (topK : Nat) : List (Option ℚ) :=
  if 0 < topK ∧ topK < scaled.length then
    let keep := (sortedIndices scaled).take topK
    (List.range scaled.length).map
      (fun i => if i ∈ keep then some (scaled.getD i 0) else none)
  else scaled.map some

/-- The running-maximum loop of `sample` (starting from `-Infinity = none`). -/
def maxLogitOf (filtered : List (Option ℚ)) : Option ℚ :=
  filtered.foldl
    (fun acc x =>
      match acc, x with
      | none, _ => x
      | some m, some v => if m < v then some v else some m
      | some m, none => some m)
    none

/-- The softmax numerators of `sample`: suppressed entries contribute exactly
zero; the rest are `exp(scaled - maxLogit)` for the abstract `Math.exp` model
`expf`. -/
def probsOf (filtered : List (Option ℚ)) (expf : ℚ → ℚ) : List ℚ :=
  let m := maxLogitOf filtered
  filtered.map
    (fun x =>
      match x, m with
      | some v, some mx => expf (v - mx)
      | _, _ => 0)

/-- The cumulative-distribution walk of `sample`: return the first index whose
cumulative probability strictly exceeds the draw, or `none` when the loop falls
through. -/
def walkFrom (r : ℚ) : List ℚ → ℚ → Nat → Option Nat
  | [], _, _ => none
  | p :: rest, cum, i =>
    let c := cum + p
    if r < c then some i else walkFrom r rest c (i + 1)

/-- Model of `AstroEngine.sample` over exact rationals.  `rand` models the
`Math.random()` draw (so `0 ≤ rand < 1` in every theorem) and `expf` models
`Math.exp`, kept abstract — the claims below use only its positivity.  The
fall-through return of `probs.length - 1` mirrors the final `return` of the
method. -/
def sample (logits : List ℚ) (temperature : ℚ) (topK : Nat) (rand : ℚ)
    (expf : ℚ → ℚ) : Nat :=
  let filtered := filteredOf (scaledOf logits temperature) topK
  let probs := probsOf filtered expf
  let r := rand * probs.sum
  (walkFrom r probs 0 0).getD (probs.length - 1)

/-- The inference-session contract: the full current token sequence in, one row
of logits per sequence position out (the `(1, seqLen, vocabSize)` tensor as a
list of rows), or a thrown error. -/
abbrev SessionFn := List Int → Except String (List (List ℚ))

/-- The decode loop of `AstroEngine._generate`: run the session on the current
tokens, take the logits row of the last position, sample the next token, append
it to both the working sequence and the generated list; a session error
propagates immediately (there is no try/catch inside `_generate`).  `fuel` is
the remaining iteration count (initially `maxTokens`), `step` the index of the
current iteration (used to draw `rands step`). -/
def decodeSteps (sess : SessionFn) (temperature : ℚ) (topK : Nat)
    (rands : Nat → ℚ) (expf : ℚ → ℚ) :
    Nat → Nat → List Int → List Int → Except String (List Int)
  | 0, _, _, gen => Except.ok gen
  | fuel + 1, step, toks, gen =>
    match sess toks with
    | Except.error e => Except.error e
    | Except.ok rows =>
      decodeSteps sess temperature topK rands expf fuel (step + 1)
        (toks ++ [Int.ofNat (sample (rows.getD (rows.length - 1) [])
          temperature topK (rands step) expf)])
        (gen ++ [Int.ofNat (sample (rows.getD (rows.length - 1) [])
          temperature topK (rands step) expf)])

/-- Result of one `AstroEngine._generate` call: encode the prompt, run
`maxTokens` decode steps, and decode only the newly generated ids.  On a session
error the call returns that error and nothing else — the partial `generatedTokens`
are local to the call and are never decoded or returned. -/
def generateResult (t : BPETokenizer) (sess : SessionFn) (maxTokens : Nat)
    (temperature : ℚ) (topK : Nat) (rands : Nat → ℚ) (expf : ℚ → ℚ)
    (prompt : String) : Except String String :=
  let tokens := (t.encode prompt).1
  (decodeSteps sess temperature topK rands expf maxTokens 0 tokens []).map
    (fun gen => t.decode gen)

/-- The session raises at the k-th invocation of the decode loop started from
`toks` at iteration `step`: the first `k` invocations succeed and the next one
returns `Except.error e`. -/
inductive FailsAt (sess : SessionFn) (temperature : ℚ) (topK : Nat)
    (rands : Nat → ℚ) (expf : ℚ → ℚ) : Nat → Nat → List Int → String → Prop
  | here (step : Nat) (toks : List Int) (e : String) :
      sess toks = Except.error e →
      FailsAt sess temperature topK rands expf 0 step toks e
  | later (k step : Nat) (toks : List Int) (rows : List (List ℚ)) (e : String) :
      sess toks = Except.ok rows →
      FailsAt sess temperature topK rands expf k (step + 1)
        (toks ++ [Int.ofNat (sample (rows.getD (rows.length - 1) [])
          temperature topK (rands step) expf)]) e →
      FailsAt sess temperature topK rands expf (k + 1) step toks e

/-- Events of the concurrency model of `AstroEngine.generate`: call `i`
acquires the mutex, performs its inference invocations (`inf i k` is the k-th
awaited `session.run` of call i), and releases the mutex. -/
inductive GenEvent where
  | acq (i : Nat)
  | inf (i k : Nat)
  | rel (i : Nat)
deriving DecidableEq, Repr

/-- Program order of one `generate` call performing `n` inference invocations:
`acquireMutex` resolves, the decode loop runs its session invocations, and the
`finally` block releases — the `rel` event is present whether `_generate`
returned normally or threw, so a failed call simply has a smaller `n`. -/
def callEvents (i n : Nat) : List GenEvent :=
  GenEvent.acq i :: ((List.range n).map (GenEvent.inf i) ++ [GenEvent.rel i])

/-- Which call an event belongs to. -/
def belongsTo (i : Nat) : GenEvent → Bool
  | GenEvent.acq j => j = i
  | GenEvent.inf j _ => j = i
  | GenEvent.rel j => j = i

/-- Check the mutex gate along a trace.  In `acquireMutex`, call i receives the
current `generationMutex` chain, which resolves only once `release` has fired
for every earlier call (each link of the chain is `.then(() => next)` for that
call's `next` promise, resolved exactly by its `release`).  So an `acq i` event
may occur only after `rel j` for every `j < i`. -/
def gateCheckAux : List GenEvent → List GenEvent → Bool
  | _, [] => true
  | seen, e :: rest =>
    (match e with
     | GenEvent.acq i => (List.range i).all (fun j => seen.contains (GenEvent.rel j))
     | _ => true)
    && gateCheckAux (e :: seen) rest

/-- The whole-trace gate check. -/
def gateCheck (tr : List GenEvent) : Bool :=
  gateCheckAux [] tr

/-- A possible interleaved execution of queued `generate` calls, where call `i`
performs `ns.getD i 0` inference invocations: the per-call subsequence of the
trace is exactly that call's program order, every event belongs to one of the
calls, and the promise-chain mutex gate is respected. -/
def ValidTrace (tr : List GenEvent) (ns : List Nat) : Prop :=
  (∀ i, i < ns.length → tr.filter (belongsTo i) = callEvents i (ns.getD i 0)) ∧
  tr.all (fun e => (List.range ns.length).any (fun i => belongsTo i e)) = true ∧
  gateCheck tr = true

/-- Number of entries scoring strictly higher than entry `j` — an entry is
outside every reading of "the topK highest-scoring entries" exactly when at
least `topK` entries score strictly higher. -/
def countGreater (logits : List ℚ) (j : Nat) : Nat :=
  ((List.range logits.length).filter
    (fun i => decide (logits.getD j 0 < logits.getD i 0))).length

/-- The pair `p` occurs adjacently somewhere in `ids`. -/
def AdjacentIn (ids : List Int) (p : Int × Int) : Prop :=
  ∃ u v, ids = u ++ p.1 :: p.2 :: v

/-- Spec-side description of one merge round, written from the specification
sentence: scan left to right; when a match is found at position i, emit the
merged id and advance by 2, otherwise emit the original id and advance by 1. -/
inductive ReplaceSpec (p : Int × Int) (idx : Int) : List Int → List Int → Prop
  | nil : ReplaceSpec p idx [] []
  | single (a : Int) : ReplaceSpec p idx [a] [a]
  | matched (rest out : List Int) :
      ReplaceSpec p idx rest out →
      ReplaceSpec p idx (p.1 :: p.2 :: rest) (idx :: out)
  | skipped (a b : Int) (rest out : List Int) :
      ¬(a = p.1 ∧ b = p.2) →
      ReplaceSpec p idx (b :: rest) out →
      ReplaceSpec p idx (a :: b :: rest) (a :: out)

/-- The pair `p` is a merge candidate for the working sequence `ids`: it occurs
adjacently in `ids` and the merge table registers it with the (non-NaN)
priority `i`. -/
def Candidate (merges : List (MKey × Option Int)) (ids : List Int) (p : Int × Int)
    (i : Int) : Prop :=
  AdjacentIn ids p ∧ mapGet merges (some p.1, some p.2) = some (some i)

/-- Strings made of printable ASCII characters. -/
def PrintableAscii (s : String) : Prop :=
  ∀ c ∈ s.data, 0x20 ≤ c.toNat ∧ c.toNat ≤ 0x7E

instance instDecPrintableAscii (s : String) : Decidable (PrintableAscii s) :=
  inferInstanceAs (Decidable (∀ c ∈ s.data, 0x20 ≤ c.toNat ∧ c.toNat ≤ 0x7E))

/-- The merge rule a line contributes, exactly as `load` parses it: `none` for
lines `load` skips (blank or not exactly three tokens), otherwise the three
parsed values (components are `none` where `parseInt` returned `NaN`). -/
def ruleOf (line : List Char) : Option (Option Int × Option Int × Option Int) :=
  if lineBlank line then none
  else if (splitOnChar ' ' line).length ≠ 3 then none
  else some (parseIntJS ((splitOnChar ' ' line).getD 0 []),
    parseIntJS ((splitOnChar ' ' line).getD 1 []),
    parseIntJS ((splitOnChar ' ' line).getD 2 []))

/-- The lines `load` iterates over. -/
def linesOf (text : String) : List (List Char) :=
  splitOnChar '\n' text.data

/-- The target (new) ids of the rules in a list of lines, in processing order. -/
def targetsOfLines (lines : List (List Char)) : List (Option Int) :=
  lines.filterMap (fun line => (ruleOf line).map (fun r => r.2.2))

/-- The target (new) ids of all rules of a merge text, in processing order. -/
def targetsOf (text : String) : List (Option Int) :=
  targetsOfLines (linesOf text)

/-- C5: with the single merge rule (97, 98, 256) loaded, encode("ab") yields
[256], encode("ba") yields [98, 97], and decode([256]) yields "ab". -/
theorem encode_decode_concrete_scenario :
    ((loadText BPETokenizer.mkNew "97 98 256").encode "ab").1 = [256]
    ∧ ((loadText BPETokenizer.mkNew "97 98 256").encode "ba").1 = [98, 97]
    ∧ (loadText BPETokenizer.mkNew "97 98 256").decode [256] = "ab" := by
  refine ⟨?_, ?_, ?_⟩ <;> decide

/-- C1 (failing input): after `generate` has run on prompt "ab" (pushing sampled
token 99 onto the array aliased by the cache), `encode "ab"` returns the mutated
cache entry [97, 98, 99], while the correct encoding of "ab" under the loaded
(empty) merge table is [97, 98].  The cache presence thus alters the returned
ids, contradicting cache transparency. -/
theorem cache_corrupted_by_generate :
    ((generateTokenizerEffect BPETokenizer.mkNew "ab" [99]).encode "ab").1 = [97, 98, 99]
    ∧ encodeIds (generateTokenizerEffect BPETokenizer.mkNew "ab" [99]) "ab" = [97, 98]
    ∧ ([97, 98, 99] : List Int) ≠ [97, 98] := by
  refine ⟨?_, ?_, ?_⟩ <;> decide

/-- C3 (counterexample): pointing `load` at an unreachable resource does not
surface any failure to the caller — the `catch` block swallows the error and the
call resolves successfully (with the tokenizer unchanged), so no `LoadFailure`
reaches the caller. -/
theorem load_failure_not_surfaced :
    BPETokenizer.load BPETokenizer.mkNew none = Except.ok BPETokenizer.mkNew := rfl

/-- C6 (counterexample): the line "x y 300" has three tokens but no parsable
left/right integer, yet it is not skipped: it registers the NaN-keyed entry
(NaN, NaN) ↦ 300 in the merge table and bumps `vocabSize` to 257; likewise
"97 98 z" (unparsable new id) adds a NaN-keyed entry to the vocabulary. -/
theorem malformed_line_registers_nan_merge :
    (loadText BPETokenizer.mkNew "x y 300").merges = [((none, none), some 300)]
    ∧ (loadText BPETokenizer.mkNew "x y 300").vocabSize = 257
    ∧ mapGet (loadText BPETokenizer.mkNew "97 98 z").vocab none = some [97, 98] := by
  refine ⟨?_, ?_, ?_⟩ <;> decide

theorem foldl_const {α β : Type} {f : α → β → α} (hf : ∀ a b, f a b = a) :
    ∀ (l : List β) (a : α), l.foldl f a = a
  | [], _ => rfl
  | b :: rest, a => by rw [List.foldl_cons, hf a b]; exact foldl_const hf rest a

theorem findBest_nil (stats : List ((Int × Int) × Nat)) : findBest [] stats = none := by
  unfold findBest
  exact foldl_const (fun a b => rfl) stats none

theorem encodeLoopF_nil_merges : ∀ (fuel : Nat) (ids : List Int),
    encodeLoopF [] fuel ids = ids
  | 0, ids => rfl
  | fuel + 1, ids => by
    unfold encodeLoopF
    rw [findBest_nil]
    split <;> rfl

theorem mapGet_append_some {α β : Type} [DecidableEq α] {l1 : List (α × β)}
    (l2 : List (α × β)) {k : α} {v : β} (h : mapGet l1 k = some v) :
    mapGet (l1 ++ l2) k = some v := by
  induction l1 with
  | nil => simp [mapGet] at h
  | cons kv rest ih =>
    obtain ⟨k', v'⟩ := kv
    rw [List.cons_append]
    simp only [mapGet] at h ⊢
    by_cases hk : k' = k
    · rw [if_pos hk] at h ⊢; exact h
    · rw [if_neg hk] at h ⊢; exact ih h

theorem mapGet_append_none {α β : Type} [DecidableEq α] {l1 : List (α × β)}
    (l2 : List (α × β)) {k : α} (h : mapGet l1 k = none) :
    mapGet (l1 ++ l2) k = mapGet l2 k := by
  induction l1 with
  | nil => rfl
  | cons kv rest ih =>
    obtain ⟨k', v'⟩ := kv
    rw [List.cons_append]
    simp only [mapGet] at h ⊢
    by_cases hk : k' = k
    · rw [if_pos hk] at h; exact absurd h (by simp)
    · rw [if_neg hk] at h ⊢; exact ih h

theorem mapGet_eq_none_of {α β : Type} [DecidableEq α] {l : List (α × β)} {k : α}
    (h : ∀ kv ∈ l, kv.1 ≠ k) : mapGet l k = none := by
  induction l with
  | nil => rfl
  | cons kv rest ih =>
    unfold mapGet
    have h1 : kv.1 ≠ k := h kv (List.mem_cons_self kv rest)
    rw [if_neg (by exact h1)]
    exact ih (fun kv' hkv' => h kv' (List.mem_cons_of_mem kv hkv'))

theorem mapGet_rangeVocab {n b : Nat} (hb : b < n) :
    mapGet ((List.range n).map (fun i => (some (Int.ofNat i), ([i] : Bytes))))
      (some (Int.ofNat b)) = some [b] := by
  induction n with
  | zero => omega
  | succ n ih =>
    rw [List.range_succ, List.map_append]
    rcases Nat.lt_or_ge b n with hlt | hge
    · exact mapGet_append_some _ (ih hlt)
    · have hbn : b = n := by omega
      subst hbn
      have hnone : mapGet ((List.range b).map
          (fun i => (some (Int.ofNat i), ([i] : Bytes)))) (some (Int.ofNat b)) = none := by
        apply mapGet_eq_none_of
        intro kv hkv
        rcases List.mem_map.mp hkv with ⟨i, hi, rfl⟩
        have : i ≠ b := Nat.ne_of_lt (List.mem_range.mp hi)
        simp [Int.ofNat_inj, this]
      rw [mapGet_append_none _ hnone]
      simp [mapGet]

theorem mapGet_initVocab {b : Nat} (hb : b < 256) :
    mapGet initVocab (some (Int.ofNat b)) = some [b] :=
  mapGet_rangeVocab hb

theorem utf8EncodeChar_ascii {c : Char} (hc : c.toNat < 0x80) :
    utf8EncodeChar c = [c.toNat] := by
  unfold utf8EncodeChar
  rw [if_pos hc]

theorem utf8Encode_ascii_chars : ∀ (l : List Char), (∀ c ∈ l, c.toNat < 0x80) →
    (l.map utf8EncodeChar).flatten = l.map Char.toNat
  | [], _ => rfl
  | c :: rest, h => by
    rw [List.map_cons, List.map_cons, List.flatten_cons,
      utf8EncodeChar_ascii (h c (List.mem_cons_self c rest)),
      utf8Encode_ascii_chars rest (fun x hx => h x (List.mem_cons_of_mem c hx))]
    rfl

theorem decode_bytes_initVocab : ∀ (bytes : List Nat), (∀ b ∈ bytes, b < 256) →
    ((bytes.map Int.ofNat).filterMap
      (fun id => mapGet initVocab (some id))).flatten = bytes
  | [], _ => rfl
  | b :: rest, h => by
    rw [List.map_cons, List.filterMap_cons]
    have hb : mapGet initVocab (some (Int.ofNat b)) = some [b] :=
      mapGet_initVocab (h b (List.mem_cons_self b rest))
    rw [hb, List.flatten_cons,
      decode_bytes_initVocab rest (fun x hx => h x (List.mem_cons_of_mem b hx))]
    rfl

theorem utf8Decode1_ascii {b : Nat} (hb : b < 0x80) (rest : Bytes) :
    utf8Decode1 b rest = (Char.ofNat b, 0) := by
  unfold utf8Decode1
  rw [if_pos hb]

theorem utf8DecodeListF_ascii : ∀ (fuel : Nat) (l : List Nat), l.length ≤ fuel →
    (∀ b ∈ l, b < 0x80) → utf8DecodeListF fuel l = l.map Char.ofNat
  | fuel, [], _, _ => by cases fuel <;> rfl
  | 0, b :: rest, hfuel, _ => by simp at hfuel
  | fuel + 1, b :: rest, hfuel, h => by
    unfold utf8DecodeListF
    rw [utf8Decode1_ascii (h b (List.mem_cons_self b rest))]
    simp only [List.drop_zero, List.map_cons]
    rw [utf8DecodeListF_ascii fuel rest (by simpa using hfuel)
      (fun x hx => h x (List.mem_cons_of_mem b hx))]

theorem utf8DecodeList_ascii {l : List Nat} (h : ∀ b ∈ l, b < 0x80) :
    utf8DecodeList l = l.map Char.ofNat :=
  utf8DecodeListF_ascii l.length l (Nat.le_refl _) h

theorem roundtrip_helper (s : String) (hs : PrintableAscii s) :
    BPETokenizer.mkNew.decode (BPETokenizer.mkNew.encode s).1 = s := by
  have hlt : ∀ c ∈ s.data, c.toNat < 0x80 := fun c hc => by
    have := (hs c hc).2; omega
  have henc : (BPETokenizer.mkNew.encode s).1 = (utf8Encode s).map Int.ofNat := by
    show encodeIds BPETokenizer.mkNew s = _
    unfold encodeIds encodeLoop
    exact encodeLoopF_nil_merges _ _
  rw [henc]
  unfold BPETokenizer.decode
  have hbytes : ∀ b ∈ utf8Encode s, b < 0x80 := by
    intro b hb
    unfold utf8Encode at hb
    rw [utf8Encode_ascii_chars s.data hlt] at hb
    rcases List.mem_map.mp hb with ⟨c, hc, rfl⟩
    exact hlt c hc
  rw [show BPETokenizer.mkNew.vocab = initVocab from rfl]
  rw [decode_bytes_initVocab (utf8Encode s) (fun b hb => by have := hbytes b hb; omega)]
  rw [utf8DecodeList_ascii hbytes]
  unfold utf8Encode
  rw [utf8Encode_ascii_chars s.data hlt, List.map_map]
  have hcomp : (Char.ofNat ∘ Char.toNat) = id := funext (fun c => Char.ofNat_toNat c)
  rw [hcomp, List.map_id]

/-- C9: with no merge rules loaded (byte-only mode), decode(encode(text))
reproduces the original string exactly for every printable-ASCII text. -/
theorem byteonly_round_trip (s : String) (hs : PrintableAscii s) :
    BPETokenizer.mkNew.decode (BPETokenizer.mkNew.encode s).1 = s :=
  roundtrip_helper s hs

/-- Witness for C9 at the concrete text "Hi!". -/
theorem byteonly_round_trip_witness :
    BPETokenizer.mkNew.decode (BPETokenizer.mkNew.encode "Hi!").1 = "Hi!" :=
  byteonly_round_trip "Hi!" (by decide)

/-- C3 (amended): an unreachable resource leaves any tokenizer exactly in its
pre-load state (for a fresh tokenizer: base 256-entry byte vocabulary,
vocabSize 256, empty merge table), the call resolves without surfacing any
failure, and subsequent encode/decode still succeed byte-only (printable-ASCII
round trip). -/
theorem load_failure_degrades_silently :
    (∀ t : BPETokenizer, t.load none = Except.ok t)
    ∧ BPETokenizer.mkNew.vocabSize = 256
    ∧ BPETokenizer.mkNew.merges = []
    ∧ (∀ b : Nat, b < 256 → mapGet BPETokenizer.mkNew.vocab (some (Int.ofNat b)) = some [b])
    ∧ (∀ s : String, PrintableAscii s →
        BPETokenizer.mkNew.decode (BPETokenizer.mkNew.encode s).1 = s) :=
  ⟨fun _ => rfl, rfl, rfl, fun _ hb => mapGet_initVocab hb, roundtrip_helper⟩

/-- Witness for C3 (amended) at a concrete tokenizer and text. -/
theorem load_failure_degrades_silently_witness :
    BPETokenizer.mkNew.load none = Except.ok BPETokenizer.mkNew
    ∧ BPETokenizer.mkNew.decode (BPETokenizer.mkNew.encode "ok").1 = "ok" :=
  ⟨load_failure_degrades_silently.1 BPETokenizer.mkNew,
   load_failure_degrades_silently.2.2.2.2 "ok" (by decide)⟩

/-- C10 (counterexample): loading the single rule "97 98 65" overwrites the base
vocabulary entry for id 65 (previously the identity byte sequence [65]) with
[97, 98]: after this load, ids 0–255 no longer all map to the single-byte
identity, and an already-set vocabulary entry was mutated. -/
theorem load_overwrites_base_vocab :
    mapGet (loadText BPETokenizer.mkNew "97 98 65").vocab (some 65) = some [97, 98]
    ∧ mapGet BPETokenizer.mkNew.vocab (some 65) = some [65] := by
  refine ⟨?_, ?_⟩ <;> decide

theorem mapGet_mapSet {α β : Type} [DecidableEq α] :
    ∀ (m : List (α × β)) (k : α) (v : β) (k' : α),
      mapGet (mapSet m k v) k' = if k' = k then some v else mapGet m k'
  | [], k, v, k' => by
    simp only [mapSet, mapGet]
    by_cases h : k = k'
    · subst h; simp
    · rw [if_neg h, if_neg (fun hh => h hh.symm)]
  | (k0, v0) :: rest, k, v, k' => by
    simp only [mapSet]
    by_cases h0 : k0 = k
    · subst h0
      simp only [if_pos rfl, mapGet]
      by_cases h : k0 = k'
      · subst h; simp
      · rw [if_neg h, if_neg (fun hh => h hh.symm), if_neg h]
    · rw [if_neg h0]
      simp only [mapGet]
      by_cases h1 : k0 = k'
      · have h2 : ¬(k' = k) := fun hh => h0 (h1.trans hh)
        rw [if_pos h1, if_neg h2, if_pos h1]
      · rw [if_neg h1, mapGet_mapSet rest k v k', if_neg h1]

theorem mapSet_eq_append_of_none {α β : Type} [DecidableEq α] {m : List (α × β)} {k : α}
    (v : β) (h : mapGet m k = none) : mapSet m k v = m ++ [(k, v)] := by
  induction m with
  | nil => rfl
  | cons kv rest ih =>
    obtain ⟨k0, v0⟩ := kv
    simp only [mapGet] at h
    by_cases h0 : k0 = k
    · rw [if_pos h0] at h; exact absurd h (by simp)
    · rw [if_neg h0] at h
      simp only [mapSet, if_neg h0, List.cons_append, List.cons.injEq, true_and]
      exact ih h

theorem processLine_skip {t : BPETokenizer} {line : List Char}
    (h : lineBlank line = true ∨ (splitOnChar ' ' line).length ≠ 3) :
    processLine t line = t := by
  unfold processLine
  rcases h with h | h
  · rw [if_pos h]
  · by_cases hb : lineBlank line
    · rw [if_pos hb]
    · rw [if_neg hb, if_pos h]

theorem ruleOf_some {line : List Char} {p0 p1 idx : Option Int}
    (h : ruleOf line = some (p0, p1, idx)) :
    lineBlank line = false ∧ (splitOnChar ' ' line).length = 3 ∧
    p0 = parseIntJS ((splitOnChar ' ' line).getD 0 []) ∧
    p1 = parseIntJS ((splitOnChar ' ' line).getD 1 []) ∧
    idx = parseIntJS ((splitOnChar ' ' line).getD 2 []) := by
  unfold ruleOf at h
  by_cases hb : lineBlank line
  · rw [if_pos hb] at h; exact absurd h (by simp)
  · rw [if_neg hb] at h
    by_cases hl : (splitOnChar ' ' line).length ≠ 3
    · rw [if_pos hl] at h; exact absurd h (by simp)
    · rw [if_neg hl] at h
      have hb2 : lineBlank line = false := by revert hb; cases lineBlank line <;> simp
      have h3 : (splitOnChar ' ' line).length = 3 := by omega
      have h' := Option.some.inj h
      simp only [Prod.mk.injEq] at h'
      exact ⟨hb2, h3, h'.1.symm, h'.2.1.symm, h'.2.2.symm⟩

theorem processLine_of_rule {t : BPETokenizer} {line : List Char} {p0 p1 idx : Option Int}
    (h : ruleOf line = some (p0, p1, idx)) :
    processLine t line =
      { t with
        merges := mapSet t.merges (p0, p1) idx,
        vocab :=
          match mapGet t.vocab p0, mapGet t.vocab p1 with
          | some v0, some v1 => mapSet t.vocab idx (v0 ++ v1)
          | _, _ => t.vocab } := by
  obtain ⟨hb, hl, h0, h1, h2⟩ := ruleOf_some h
  unfold processLine
  rw [if_neg (by simp [hb]), if_neg (by simp [hl]), ← h0, ← h1, ← h2]

theorem processLine_vocab_cases (t : BPETokenizer) (line : List Char) :
    (processLine t line).vocab = t.vocab ∨
    ∃ p0 p1 idx v0 v1, ruleOf line = some (p0, p1, idx) ∧
      mapGet t.vocab p0 = some v0 ∧ mapGet t.vocab p1 = some v1 ∧
      (processLine t line).vocab = mapSet t.vocab idx (v0 ++ v1) := by
  by_cases hb : lineBlank line
  · left; rw [processLine_skip (Or.inl hb)]
  · by_cases hl : (splitOnChar ' ' line).length = 3
    · have hr : ruleOf line = some
          (parseIntJS ((splitOnChar ' ' line).getD 0 []),
           parseIntJS ((splitOnChar ' ' line).getD 1 []),
           parseIntJS ((splitOnChar ' ' line).getD 2 [])) := by
        unfold ruleOf
        rw [if_neg hb, if_neg (by simp [hl])]
      rw [processLine_of_rule hr]
      cases h0 : mapGet t.vocab (parseIntJS ((splitOnChar ' ' line).getD 0 [])) with
      | none => left; simp [h0]
      | some v0 =>
        cases h1 : mapGet t.vocab (parseIntJS ((splitOnChar ' ' line).getD 1 [])) with
        | none => left; simp [h0, h1]
        | some v1 =>
          right
          exact ⟨_, _, _, v0, v1, hr, h0, h1, by simp [h0, h1]⟩
    · left; rw [processLine_skip (Or.inr hl)]

theorem targetsOfLines_cons_some {line : List Char} {rest : List (List Char)}
    {p0 p1 idx : Option Int} (h : ruleOf line = some (p0, p1, idx)) :
    targetsOfLines (line :: rest) = idx :: targetsOfLines rest := by
  simp [targetsOfLines, List.filterMap_cons, h]

theorem targetsOfLines_cons_none {line : List Char} {rest : List (List Char)}
    (h : ruleOf line = none) :
    targetsOfLines (line :: rest) = targetsOfLines rest := by
  simp [targetsOfLines, List.filterMap_cons, h]

theorem loadFold_preserves : ∀ (lines : List (List Char)) (t : BPETokenizer),
    (∀ tgt ∈ targetsOfLines lines, mapGet t.vocab tgt = none) →
    (targetsOfLines lines).Nodup →
    ∀ k v, mapGet t.vocab k = some v →
      mapGet (lines.foldl processLine t).vocab k = some v
  | [], t, _, _, k, v, hk => hk
  | line :: rest, t, hfresh, hnodup, k, v, hk => by
    rw [List.foldl_cons]
    rcases processLine_vocab_cases t line with hcase | ⟨p0, p1, idx, v0, v1, hr, h0, h1, hset⟩
    · have htargets : ∀ tgt ∈ targetsOfLines rest,
          mapGet (processLine t line).vocab tgt = none := by
        intro tgt htgt
        rw [hcase]
        apply hfresh
        cases hrl : ruleOf line with
        | none => rw [targetsOfLines_cons_none hrl]; exact htgt
        | some r =>
          obtain ⟨a, b, c⟩ := r
          rw [targetsOfLines_cons_some hrl]
          exact List.mem_cons_of_mem _ htgt
      have hnodup2 : (targetsOfLines rest).Nodup := by
        cases hrl : ruleOf line with
        | none => rw [targetsOfLines_cons_none hrl] at hnodup; exact hnodup
        | some r =>
          obtain ⟨a, b, c⟩ := r
          rw [targetsOfLines_cons_some hrl] at hnodup
          exact hnodup.of_cons
      exact loadFold_preserves rest (processLine t line) htargets hnodup2 k v
        (by rw [hcase]; exact hk)
    · rw [targetsOfLines_cons_some hr] at hfresh hnodup
      have hidxfresh : mapGet t.vocab idx = none :=
        hfresh idx (List.mem_cons_self idx _)
      have hkne : k ≠ idx := fun hke => by
        rw [hke, hidxfresh] at hk; exact Option.noConfusion hk
      have hk2 : mapGet (processLine t line).vocab k = some v := by
        rw [hset, mapGet_mapSet, if_neg hkne]; exact hk
      have htargets : ∀ tgt ∈ targetsOfLines rest,
          mapGet (processLine t line).vocab tgt = none := by
        intro tgt htgt
        have hne : tgt ≠ idx := fun hte => by
          subst hte
          exact (List.nodup_cons.mp hnodup).1 htgt
        rw [hset, mapGet_mapSet, if_neg hne]
        exact hfresh tgt (List.mem_cons_of_mem _ htgt)
      exact loadFold_preserves rest (processLine t line) htargets
        (List.nodup_cons.mp hnodup).2 k v hk2

theorem loadText_vocab (t : BPETokenizer) (text : String) :
    (loadText t text).vocab = ((linesOf text).foldl processLine t).vocab := rfl

/-- C10 (amended): for loads whose rules all have fresh target ids (pairwise
distinct and not already bound in the vocabulary), the vocabulary is only ever
appended to: every previously set entry survives unchanged (in particular, from
a fresh tokenizer, ids 0–255 still map to the single-byte identity), and each
rule whose two constituent ids are present and whose target is fresh appends
exactly one new entry whose byte sequence is the order-preserving concatenation
of its constituents' byte sequences. -/
theorem vocab_invariant_amended :
    (∀ (t : BPETokenizer) (text : String),
      (∀ tgt ∈ targetsOf text, mapGet t.vocab tgt = none) →
      (targetsOf text).Nodup →
      ∀ k v, mapGet t.vocab k = some v → mapGet (loadText t text).vocab k = some v)
    ∧ (∀ (text : String),
      (∀ tgt ∈ targetsOf text, mapGet BPETokenizer.mkNew.vocab tgt = none) →
      (targetsOf text).Nodup →
      ∀ b : Nat, b < 256 →
        mapGet (loadText BPETokenizer.mkNew text).vocab (some (Int.ofNat b)) = some [b])
    ∧ (∀ (t : BPETokenizer) (line : List Char) (p0 p1 idx : Option Int) (v0 v1 : Bytes),
      ruleOf line = some (p0, p1, idx) →
      mapGet t.vocab idx = none →
      mapGet t.vocab p0 = some v0 → mapGet t.vocab p1 = some v1 →
      (processLine t line).vocab = t.vocab ++ [(idx, v0 ++ v1)]
      ∧ mapGet (processLine t line).vocab idx = some (v0 ++ v1)
      ∧ ∀ k, k ≠ idx → mapGet (processLine t line).vocab k = mapGet t.vocab k) := by
  refine ⟨?_, ?_, ?_⟩
  · intro t text hfresh hnodup k v hk
    rw [loadText_vocab]
    exact loadFold_preserves (linesOf text) t hfresh hnodup k v hk
  · intro text hfresh hnodup b hb
    rw [loadText_vocab]
    exact loadFold_preserves (linesOf text) BPETokenizer.mkNew hfresh hnodup _ _
      (mapGet_initVocab hb)
  · intro t line p0 p1 idx v0 v1 hr hidx h0 h1
    have hset : (processLine t line).vocab = mapSet t.vocab idx (v0 ++ v1) := by
      rw [processLine_of_rule hr]; simp [h0, h1]
    refine ⟨?_, ?_, ?_⟩
    · rw [hset]; exact mapSet_eq_append_of_none _ hidx
    · rw [hset, mapGet_mapSet, if_pos rfl]
    · intro k hkne
      rw [hset, mapGet_mapSet, if_neg hkne]

/-- Witness for C10 (amended) at the two-rule text "97 98 256\n256 99 257". -/
theorem vocab_invariant_amended_witness :
    mapGet (loadText BPETokenizer.mkNew "97 98 256\n256 99 257").vocab (some 65)
      = some [65]
    ∧ (processLine BPETokenizer.mkNew ("97 98 256".data)).vocab
      = BPETokenizer.mkNew.vocab ++ [(some 256, [97, 98])] := by
  constructor
  · exact vocab_invariant_amended.1 BPETokenizer.mkNew "97 98 256\n256 99 257"
      (by decide) (by decide) (some 65) [65] (by decide)
  · exact (vocab_invariant_amended.2.2 BPETokenizer.mkNew ("97 98 256".data)
      (some 97) (some 98) (some 256) [97] [98] (by decide) (by decide)
      (by decide) (by decide)).1

/-- C6 (amended): lines that are blank or do not split into exactly three
space-separated tokens are skipped entirely (the tokenizer state is unchanged)
and loading continues; but a line with exactly three tokens is processed even
when its integers are unparsable — it always registers its (possibly NaN-keyed
or NaN-valued) parsed triple in the merge table, and, against a vocabulary with
no NaN-keyed entry, a line whose left or right id is unparsable adds nothing to
the vocabulary. -/
theorem malformed_line_tolerance_amended :
    (∀ (t : BPETokenizer) (line : List Char),
      lineBlank line = true ∨ (splitOnChar ' ' line).length ≠ 3 →
      processLine t line = t)
    ∧ (∀ (t : BPETokenizer) (line : List Char) (p0 p1 idx : Option Int),
      ruleOf line = some (p0, p1, idx) →
      mapGet (processLine t line).merges (p0, p1) = some idx)
    ∧ (∀ (t : BPETokenizer) (line : List Char) (p0 p1 idx : Option Int),
      ruleOf line = some (p0, p1, idx) →
      (p0 = none ∨ p1 = none) →
      mapGet t.vocab none = none →
      (processLine t line).vocab = t.vocab) := by
  refine ⟨fun t line h => processLine_skip h, ?_, ?_⟩
  · intro t line p0 p1 idx hr
    rw [processLine_of_rule hr]
    show mapGet (mapSet t.merges (p0, p1) idx) (p0, p1) = some idx
    rw [mapGet_mapSet, if_pos rfl]
  · intro t line p0 p1 idx hr hnan hnone
    rw [processLine_of_rule hr]
    show (match mapGet t.vocab p0, mapGet t.vocab p1 with
      | some v0, some v1 => mapSet t.vocab idx (v0 ++ v1)
      | _, _ => t.vocab) = t.vocab
    rcases hnan with rfl | rfl
    · rw [hnone]
    · rw [hnone]
      cases mapGet t.vocab p0 <;> rfl

/-- Witness for C6 (amended) at the concrete lines "one two" (two tokens,
skipped) and "x y 300" (three tokens, unparsable, still registered). -/
theorem malformed_line_tolerance_amended_witness :
    processLine BPETokenizer.mkNew ("one two".data) = BPETokenizer.mkNew
    ∧ mapGet (processLine BPETokenizer.mkNew ("x y 300".data)).merges (none, none)
      = some (some 300)
    ∧ (processLine BPETokenizer.mkNew ("x y 300".data)).vocab
      = BPETokenizer.mkNew.vocab := by
  refine ⟨?_, ?_, ?_⟩
  · exact malformed_line_tolerance_amended.1 BPETokenizer.mkNew ("one two".data)
      (Or.inr (by decide))
  · exact malformed_line_tolerance_amended.2.1 BPETokenizer.mkNew ("x y 300".data)
      none none (some 300) (by decide)
  · exact malformed_line_tolerance_amended.2.2 BPETokenizer.mkNew ("x y 300".data)
      none none (some 300) (by decide) (Or.inl rfl) (by decide)

theorem mem_mapSet {α β : Type} [DecidableEq α] :
    ∀ {m : List (α × β)} {k : α} {v : β} {kv : α × β},
      kv ∈ mapSet m k v → kv = (k, v) ∨ kv ∈ m := by
  intro m
  induction m with
  | nil => intro k v kv h; simp [mapSet] at h; exact Or.inl h
  | cons kv0 rest ih =>
    intro k v kv h
    obtain ⟨k0, v0⟩ := kv0
    simp only [mapSet] at h
    by_cases h0 : k0 = k
    · rw [if_pos h0] at h
      rcases List.mem_cons.mp h with h | h
      · exact Or.inl h
      · exact Or.inr (List.mem_cons_of_mem _ h)
    · rw [if_neg h0] at h
      rcases List.mem_cons.mp h with h | h
      · exact Or.inr (List.mem_cons.mpr (Or.inl h))
      · rcases ih h with h | h
        · exact Or.inl h
        · exact Or.inr (List.mem_cons_of_mem _ h)

theorem mapSet_mem_self {α β : Type} [DecidableEq α] :
    ∀ (m : List (α × β)) (k : α) (v : β), (k, v) ∈ mapSet m k v := by
  intro m
  induction m with
  | nil => intro k v; simp [mapSet]
  | cons kv0 rest ih =>
    intro k v
    obtain ⟨k0, v0⟩ := kv0
    simp only [mapSet]
    by_cases h0 : k0 = k
    · rw [if_pos h0]; exact List.mem_cons_self _ _
    · rw [if_neg h0]; exact List.mem_cons_of_mem _ (ih k v)

theorem mem_keep_mapSet {α β : Type} [DecidableEq α] :
    ∀ {m : List (α × β)} {k : α} {v : β} {p : α} {c : β},
      p ≠ k → (p, c) ∈ m → (p, c) ∈ mapSet m k v := by
  intro m
  induction m with
  | nil => intro k v p c _ hc; simp at hc
  | cons kv0 rest ih =>
    intro k v p c hpk hc
    obtain ⟨k0, v0⟩ := kv0
    simp only [mapSet]
    by_cases h0 : k0 = k
    · rw [if_pos h0]
      rcases List.mem_cons.mp hc with h | h
      · exact absurd ((congrArg Prod.fst h).trans h0) hpk
      · exact List.mem_cons_of_mem _ h
    · rw [if_neg h0]
      rcases List.mem_cons.mp hc with h | h
      · exact List.mem_cons.mpr (Or.inl h)
      · exact List.mem_cons_of_mem _ (ih hpk h)

theorem mem_key_mapSet {α β : Type} [DecidableEq α] {m : List (α × β)} {p k : α} {v : β}
    (h : ∃ c, (p, c) ∈ m) : ∃ c, (p, c) ∈ mapSet m k v := by
  by_cases hpk : p = k
  · exact ⟨v, hpk ▸ mapSet_mem_self m k v⟩
  · obtain ⟨c, hc⟩ := h
    exact ⟨c, mem_keep_mapSet hpk hc⟩

theorem getStats_key_mem : ∀ {ids : List Int} {kv : (Int × Int) × Nat},
    kv ∈ getStats ids → kv.1 ∈ ids.zip ids.tail := by
  intro ids kv h
  unfold getStats at h
  suffices haux : ∀ (l : List (Int × Int)) (m : List ((Int × Int) × Nat))
      (kv : (Int × Int) × Nat),
      kv ∈ l.foldl (fun m p => mapSet m p ((mapGet m p).getD 0 + 1)) m →
      kv.1 ∈ l ∨ kv ∈ m by
    rcases haux (ids.zip ids.tail) [] kv h with h | h
    · exact h
    · simp at h
  intro l
  induction l with
  | nil => intro m kv h; exact Or.inr h
  | cons p rest ih =>
    intro m kv h
    rw [List.foldl_cons] at h
    rcases ih _ kv h with h | h
    · exact Or.inl (List.mem_cons_of_mem _ h)
    · rcases mem_mapSet h with h | h
      · exact Or.inl (List.mem_cons.mpr (Or.inl (congrArg Prod.fst h)))
      · exact Or.inr h

theorem getStats_mem_of_adjacent {ids : List Int} {p : Int × Int}
    (h : p ∈ ids.zip ids.tail) : ∃ c, (p, c) ∈ getStats ids := by
  unfold getStats
  suffices haux : ∀ (l : List (Int × Int)) (m : List ((Int × Int) × Nat)),
      p ∈ l ∨ (∃ c, (p, c) ∈ m) →
      ∃ c, (p, c) ∈ l.foldl (fun m q => mapSet m q ((mapGet m q).getD 0 + 1)) m from
    haux (ids.zip ids.tail) [] (Or.inl h)
  intro l
  induction l with
  | nil =>
    intro m h
    rcases h with h | h
    · simp at h
    · exact h
  | cons q rest ih =>
    intro m h
    rw [List.foldl_cons]
    rcases h with h | h
    · rcases List.mem_cons.mp h with h | h
      · subst h
        exact ih _ (Or.inr ⟨(mapGet m p).getD 0 + 1, mapSet_mem_self m p _⟩)
      · exact ih _ (Or.inl h)
    · exact ih _ (Or.inr (mem_key_mapSet h))

theorem zip_tail_adjacent : ∀ {ids : List Int} {p : Int × Int},
    p ∈ ids.zip ids.tail → AdjacentIn ids p := by
  intro ids
  induction ids with
  | nil => intro p h; simp at h
  | cons a rest ih =>
    intro p h
    cases rest with
    | nil => simp at h
    | cons b rest2 =>
      simp only [List.tail_cons, List.zip_cons_cons] at h
      rcases List.mem_cons.mp h with h | h
      · subst h
        exact ⟨[], rest2, rfl⟩
      · obtain ⟨u, v, huv⟩ := ih h
        exact ⟨a :: u, v, by rw [huv, List.cons_append]⟩

theorem adjacent_mem_zip_tail : ∀ {ids : List Int} {p : Int × Int},
    AdjacentIn ids p → p ∈ ids.zip ids.tail := by
  intro ids p ⟨u, v, huv⟩
  subst huv
  induction u with
  | nil => simp
  | cons a u ih =>
    have hne : u ++ p.1 :: p.2 :: v ≠ [] := by simp
    obtain ⟨x, rest, hu⟩ := List.exists_cons_of_ne_nil hne
    rw [List.cons_append, hu, List.tail_cons, List.zip_cons_cons]
    apply List.mem_cons_of_mem
    rw [hu, List.tail_cons] at ih
    exact ih

theorem findBest_fold_inv (merges : List (MKey × Option Int)) :
    ∀ (l s : List ((Int × Int) × Nat)) (acc : Option ((Int × Int) × Int)),
      ((acc = none ∧ ∀ q c j, (q, c) ∈ s →
          mapGet merges (some q.1, some q.2) ≠ some (some j)) ∨
        (∃ p i, acc = some (p, i)
          ∧ mapGet merges (some p.1, some p.2) = some (some i)
          ∧ (∃ c, (p, c) ∈ s)
          ∧ ∀ q c j, (q, c) ∈ s →
              mapGet merges (some q.1, some q.2) = some (some j) → i ≤ j)) →
      ((l.foldl
          (fun acc pc =>
            match mapGet merges (some pc.1.1, some pc.1.2) with
            | some (some idx) =>
              match acc with
              | none => some (pc.1, idx)
              | some best => if idx < best.2 then some (pc.1, idx) else acc
            | _ => acc)
          acc = none
        ∧ ∀ q c j, (q, c) ∈ s ++ l →
            mapGet merges (some q.1, some q.2) ≠ some (some j)) ∨
        (∃ p i, l.foldl
          (fun acc pc =>
            match mapGet merges (some pc.1.1, some pc.1.2) with
            | some (some idx) =>
              match acc with
              | none => some (pc.1, idx)
              | some best => if idx < best.2 then some (pc.1, idx) else acc
            | _ => acc)
          acc = some (p, i)
          ∧ mapGet merges (some p.1, some p.2) = some (some i)
          ∧ (∃ c, (p, c) ∈ s ++ l)
          ∧ ∀ q c j, (q, c) ∈ s ++ l →
              mapGet merges (some q.1, some q.2) = some (some j) → i ≤ j))
  | [], s, acc, hinv => by
    rw [List.foldl_nil, List.append_nil]
    exact hinv
  | pc :: rest, s, acc, hinv => by
    rw [List.foldl_cons]
    have key : s ++ pc :: rest = (s ++ [pc]) ++ rest := by simp
    rw [key]
    apply findBest_fold_inv merges rest (s ++ [pc])
    rcases hq : mapGet merges (some pc.1.1, some pc.1.2) with _ | oi
    · rcases hinv with ⟨hacc, hnone⟩ | ⟨p, i, hacc, hpm, hpmem, hmin⟩
      · subst hacc
        refine Or.inl ⟨rfl, ?_⟩
        intro q c j hqmem
        rcases List.mem_append.mp hqmem with h | h
        · exact hnone q c j h
        · have hpc : (q, c) = pc := by simpa using h
          have : q = pc.1 := by rw [← hpc]
          rw [this, hq]
          exact fun hh => Option.noConfusion hh
      · subst hacc
        refine Or.inr ⟨p, i, rfl, hpm, ⟨hpmem.choose,
          List.mem_append.mpr (Or.inl hpmem.choose_spec)⟩, ?_⟩
        intro q c j hqmem hqm
        rcases List.mem_append.mp hqmem with h | h
        · exact hmin q c j h hqm
        · have hpc : (q, c) = pc := by simpa using h
          have hq1 : q = pc.1 := by rw [← hpc]
          rw [hq1, hq] at hqm
          exact absurd hqm (fun hh => Option.noConfusion hh)
    · rcases oi with _ | idx
      · rcases hinv with ⟨hacc, hnone⟩ | ⟨p, i, hacc, hpm, hpmem, hmin⟩
        · subst hacc
          refine Or.inl ⟨rfl, ?_⟩
          intro q c j hqmem
          rcases List.mem_append.mp hqmem with h | h
          · exact hnone q c j h
          · have hpc : (q, c) = pc := by simpa using h
            have : q = pc.1 := by rw [← hpc]
            rw [this, hq]
            intro hh
            exact Option.noConfusion (Option.some.inj hh)
        · subst hacc
          refine Or.inr ⟨p, i, rfl, hpm, ⟨hpmem.choose,
            List.mem_append.mpr (Or.inl hpmem.choose_spec)⟩, ?_⟩
          intro q c j hqmem hqm
          rcases List.mem_append.mp hqmem with h | h
          · exact hmin q c j h hqm
          · have hpc : (q, c) = pc := by simpa using h
            have hq1 : q = pc.1 := by rw [← hpc]
            rw [hq1, hq] at hqm
            exact absurd (Option.some.inj hqm) (fun hh => Option.noConfusion hh)
      · rcases hinv with ⟨hacc, hnone⟩ | ⟨p, i, hacc, hpm, hpmem, hmin⟩
        · subst hacc
          refine Or.inr ⟨pc.1, idx, rfl, hq, ⟨pc.2, by simp⟩, ?_⟩
          intro q c j hqmem hqm
          rcases List.mem_append.mp hqmem with h | h
          · exact absurd hqm (hnone q c j h)
          · have hpc : (q, c) = pc := by simpa using h
            have hq1 : q = pc.1 := by rw [← hpc]
            rw [hq1, hq] at hqm
            have : idx = j := Option.some.inj (Option.some.inj hqm)
            omega
        · subst hacc
          by_cases hlt : idx < i
          · refine Or.inr ⟨pc.1, idx, by simp [hlt], hq, ⟨pc.2, by simp⟩, ?_⟩
            intro q c j hqmem hqm
            rcases List.mem_append.mp hqmem with h | h
            · have := hmin q c j h hqm
              omega
            · have hpc : (q, c) = pc := by simpa using h
              have hq1 : q = pc.1 := by rw [← hpc]
              rw [hq1, hq] at hqm
              have : idx = j := Option.some.inj (Option.some.inj hqm)
              omega
          · refine Or.inr ⟨p, i, by simp [hlt], hpm, ⟨hpmem.choose,
              List.mem_append.mpr (Or.inl hpmem.choose_spec)⟩, ?_⟩
            intro q c j hqmem hqm
            rcases List.mem_append.mp hqmem with h | h
            · exact hmin q c j h hqm
            · have hpc : (q, c) = pc := by simpa using h
              have hq1 : q = pc.1 := by rw [← hpc]
              rw [hq1, hq] at hqm
              have : idx = j := Option.some.inj (Option.some.inj hqm)
              omega

theorem findBest_spec (merges : List (MKey × Option Int)) (ids : List Int) :
    (findBest merges (getStats ids) = none → ∀ p i, ¬ Candidate merges ids p i)
    ∧ (∀ p i, findBest merges (getStats ids) = some (p, i) →
        Candidate merges ids p i ∧ ∀ q j, Candidate merges ids q j → i ≤ j) := by
  have hinv := findBest_fold_inv merges (getStats ids) [] none
    (Or.inl ⟨rfl, by intro q c j h; simp at h⟩)
  rw [List.nil_append] at hinv
  constructor
  · intro hnone p i hcand
    rcases hinv with ⟨_, hnocand⟩ | ⟨p', i', hsome, _, _, _⟩
    · obtain ⟨c, hc⟩ := getStats_mem_of_adjacent (adjacent_mem_zip_tail hcand.1)
      exact hnocand p c i hc hcand.2
    · rw [show findBest merges (getStats ids) = (getStats ids).foldl
          (fun acc pc =>
            match mapGet merges (some pc.1.1, some pc.1.2) with
            | some (some idx) =>
              match acc with
              | none => some (pc.1, idx)
              | some best => if idx < best.2 then some (pc.1, idx) else acc
            | _ => acc)
          none from rfl, hsome] at hnone
      exact Option.noConfusion hnone
  · intro p i hsome
    rw [show findBest merges (getStats ids) = (getStats ids).foldl
        (fun acc pc =>
          match mapGet merges (some pc.1.1, some pc.1.2) with
          | some (some idx) =>
            match acc with
            | none => some (pc.1, idx)
            | some best => if idx < best.2 then some (pc.1, idx) else acc
          | _ => acc)
        none from rfl] at hsome
    rcases hinv with ⟨hnone, _⟩ | ⟨p', i', hsome', hpm, hpmem, hmin⟩
    · rw [hnone] at hsome
      exact Option.noConfusion hsome
    · rw [hsome'] at hsome
      have hpp : p' = p ∧ i' = i := by
        have := Option.some.inj hsome
        exact ⟨congrArg Prod.fst this, congrArg Prod.snd this⟩
      obtain ⟨rfl, rfl⟩ := hpp
      refine ⟨⟨?_, hpm⟩, ?_⟩
      · obtain ⟨c, hc⟩ := hpmem
        exact zip_tail_adjacent (getStats_key_mem hc)
      · intro q j hq
        obtain ⟨c, hc⟩ := getStats_mem_of_adjacent (adjacent_mem_zip_tail hq.1)
        exact hmin q c j hc hq.2

theorem mergeRun_cons (p : Int × Int) (idx a b : Int) (rest : List Int) :
    mergeRun p idx (a :: b :: rest) =
      if a = p.1 ∧ b = p.2 then idx :: mergeRun p idx rest
      else a :: mergeRun p idx (b :: rest) := rfl

theorem replaceSpec_mergeRun (p : Int × Int) (idx : Int) :
    ∀ l, ReplaceSpec p idx l (mergeRun p idx l)
  | [] => ReplaceSpec.nil
  | [a] => ReplaceSpec.single a
  | a :: b :: rest => by
    by_cases h : a = p.1 ∧ b = p.2
    · obtain ⟨rfl, rfl⟩ := h
      rw [mergeRun_cons, if_pos ⟨rfl, rfl⟩]
      exact ReplaceSpec.matched rest _ (replaceSpec_mergeRun p idx rest)
    · rw [mergeRun_cons, if_neg h]
      exact ReplaceSpec.skipped a b rest _ h (replaceSpec_mergeRun p idx (b :: rest))

theorem mergeRun_length_le (p : Int × Int) (idx : Int) :
    ∀ l : List Int, (mergeRun p idx l).length ≤ l.length
  | [] => Nat.le_refl _
  | [a] => Nat.le_refl _
  | a :: b :: rest => by
    by_cases h : a = p.1 ∧ b = p.2
    · rw [mergeRun_cons, if_pos h]
      have := mergeRun_length_le p idx rest
      simp only [List.length_cons]
      omega
    · rw [mergeRun_cons, if_neg h]
      have := mergeRun_length_le p idx (b :: rest)
      simp only [List.length_cons] at this ⊢
      omega

theorem mergeRun_length_lt (p : Int × Int) (idx : Int) :
    ∀ (u v : List Int),
      (mergeRun p idx (u ++ p.1 :: p.2 :: v)).length < (u ++ p.1 :: p.2 :: v).length
  | [], v => by
    rw [List.nil_append]
    rw [mergeRun_cons, if_pos ⟨rfl, rfl⟩]
    have := mergeRun_length_le p idx v
    simp only [List.length_cons]
    omega
  | a :: u, v => by
    rw [List.cons_append]
    obtain ⟨x, rest, hx⟩ :=
      List.exists_cons_of_ne_nil (l := u ++ p.1 :: p.2 :: v) (by simp)
    rw [hx]
    by_cases h : a = p.1 ∧ x = p.2
    · rw [mergeRun_cons, if_pos h]
      have := mergeRun_length_le p idx rest
      simp only [List.length_cons]
      omega
    · rw [mergeRun_cons, if_neg h]
      have hih := mergeRun_length_lt p idx u v
      rw [hx] at hih
      simp only [List.length_cons] at hih ⊢
      omega

theorem encodeLoopF_zero_of_nil (merges : List (MKey × Option Int)) :
    ∀ fuel, encodeLoopF merges fuel [] = []
  | 0 => rfl
  | _ + 1 => rfl

theorem encodeLoopF_congr (merges : List (MKey × Option Int)) :
    ∀ (f1 f2 : Nat) (ids : List Int), ids.length ≤ f1 → ids.length ≤ f2 →
      encodeLoopF merges f1 ids = encodeLoopF merges f2 ids
  | 0, f2, ids, h1, _ => by
    have : ids = [] := List.length_eq_zero.mp (Nat.le_zero.mp h1)
    subst this
    rw [encodeLoopF_zero_of_nil, encodeLoopF_zero_of_nil]
  | f1 + 1, 0, ids, _, h2 => by
    have : ids = [] := List.length_eq_zero.mp (Nat.le_zero.mp h2)
    subst this
    rw [encodeLoopF_zero_of_nil, encodeLoopF_zero_of_nil]
  | f1 + 1, f2 + 1, ids, h1, h2 => by
    show (if 2 ≤ ids.length then
        match findBest merges (getStats ids) with
        | none => ids
        | some best => encodeLoopF merges f1 (mergeRun best.1 best.2 ids)
      else ids) =
      (if 2 ≤ ids.length then
        match findBest merges (getStats ids) with
        | none => ids
        | some best => encodeLoopF merges f2 (mergeRun best.1 best.2 ids)
      else ids)
    by_cases hlen : 2 ≤ ids.length
    · rw [if_pos hlen, if_pos hlen]
      cases hfb : findBest merges (getStats ids) with
      | none => rfl
      | some best =>
        obtain ⟨p, i⟩ := best
        have hcand := ((findBest_spec merges ids).2 p i hfb).1
        obtain ⟨u, v, huv⟩ := hcand.1
        have hlt : (mergeRun p i ids).length < ids.length := by
          rw [huv]; exact mergeRun_length_lt p i u v
        exact encodeLoopF_congr merges f1 f2 (mergeRun p i ids)
          (by omega) (by omega)
    · rw [if_neg hlen, if_neg hlen]

theorem encodeLoop_of_findBest_none {merges : List (MKey × Option Int)}
    {ids : List Int} (h : findBest merges (getStats ids) = none) :
    encodeLoop merges ids = ids := by
  unfold encodeLoop
  cases hlen : ids.length with
  | zero =>
    have : ids = [] := List.length_eq_zero.mp hlen
    subst this
    rfl
  | succ n =>
    show (if 2 ≤ ids.length then
        match findBest merges (getStats ids) with
        | none => ids
        | some best => encodeLoopF merges n (mergeRun best.1 best.2 ids)
      else ids) = ids
    rw [h]
    split <;> rfl

theorem encodeLoop_step {merges : List (MKey × Option Int)} {ids : List Int}
    {p : Int × Int} {i : Int} (h : findBest merges (getStats ids) = some (p, i)) :
    encodeLoop merges ids = encodeLoop merges (mergeRun p i ids) := by
  have hcand := ((findBest_spec merges ids).2 p i h).1
  obtain ⟨u, v, huv⟩ := hcand.1
  have hlt : (mergeRun p i ids).length < ids.length := by
    rw [huv]; exact mergeRun_length_lt p i u v
  have hlen : 2 ≤ ids.length := by
    rw [huv]; simp only [List.length_append, List.length_cons]; omega
  obtain ⟨m, hm⟩ : ∃ m, ids.length = m + 1 := ⟨ids.length - 1, by omega⟩
  unfold encodeLoop
  rw [hm]
  have hLHS : encodeLoopF merges (m + 1) ids
      = encodeLoopF merges m (mergeRun p i ids) := by
    show (if 2 ≤ ids.length then
        match findBest merges (getStats ids) with
        | none => ids
        | some best => encodeLoopF merges m (mergeRun best.1 best.2 ids)
      else ids) = encodeLoopF merges m (mergeRun p i ids)
    rw [if_pos hlen, h]
  rw [hLHS]
  exact encodeLoopF_congr merges m _ (mergeRun p i ids) (by omega) (Nat.le_refl _)

/-- C4: in every iteration of the merge loop, among all adjacent pairs of the
working sequence registered in the merge table, encode selects the pair with the
lowest registered priority value (under the spec's invariant that priorities are
unique, it is the unique such pair — the earliest-defined merge rule), replaces
all non-overlapping left-to-right occurrences of that pair by its merge id in a
single pass (matching the spec's scan: on a match at position i emit the merged
id and advance by 2, otherwise emit the original id and advance by 1), and
repeats on the new sequence; when no adjacent pair carries a (non-NaN) priority
in the merge table, the loop stops and returns the sequence unchanged. -/
theorem encode_merge_loop_spec (merges : List (MKey × Option Int)) (ids : List Int)
    (huniq : ∀ (a b : MKey) (i : Int), mapGet merges a = some (some i) →
      mapGet merges b = some (some i) → a = b) :
    ((∀ p i, ¬ Candidate merges ids p i) → encodeLoop merges ids = ids)
    ∧ (∀ p i, findBest merges (getStats ids) = some (p, i) →
        Candidate merges ids p i
        ∧ (∀ q j, Candidate merges ids q j → i ≤ j)
        ∧ (∀ q j, Candidate merges ids q j → q ≠ p → i < j)
        ∧ ReplaceSpec p i ids (mergeRun p i ids)
        ∧ encodeLoop merges ids = encodeLoop merges (mergeRun p i ids))
    ∧ ((∃ p i, Candidate merges ids p i) →
        ∃ p i, findBest merges (getStats ids) = some (p, i)) := by
  refine ⟨?_, ?_, ?_⟩
  · intro hnone
    cases hfb : findBest merges (getStats ids) with
    | none => exact encodeLoop_of_findBest_none hfb
    | some best =>
      obtain ⟨p, i⟩ := best
      exact absurd ((findBest_spec merges ids).2 p i hfb).1 (hnone p i)
  · intro p i hfb
    obtain ⟨hcand, hmin⟩ := (findBest_spec merges ids).2 p i hfb
    refine ⟨hcand, hmin, ?_, replaceSpec_mergeRun p i ids, encodeLoop_step hfb⟩
    intro q j hq hne
    have hle := hmin q j hq
    rcases lt_or_eq_of_le hle with hlt | heq
    · exact hlt
    · subst heq
      have hkeys := huniq (some p.1, some p.2) (some q.1, some q.2) i hcand.2 hq.2
      have hq1 : p.1 = q.1 := Option.some.inj (congrArg Prod.fst hkeys)
      have hq2 : p.2 = q.2 := Option.some.inj (congrArg Prod.snd hkeys)
      exact absurd (Prod.ext hq1.symm hq2.symm) hne
  · intro ⟨p, i, hcand⟩
    cases hfb : findBest merges (getStats ids) with
    | none => exact absurd hcand ((findBest_spec merges ids).1 hfb p i)
    | some best =>
      obtain ⟨p', i'⟩ := best
      exact ⟨p', i', rfl⟩

/-- Witness for C4 with the merge table {(97, 98) ↦ 256} and the working
sequence [97, 98, 97]. -/
theorem encode_merge_loop_spec_witness :
    Candidate [((some 97, some 98), some 256)] [97, 98, 97] (97, 98) 256
    ∧ encodeLoop [((some 97, some 98), some 256)] [97, 98, 97]
      = encodeLoop [((some 97, some 98), some 256)]
          (mergeRun (97, 98) 256 [97, 98, 97]) := by
  have hkey : ∀ (x : MKey) (i : Int),
      mapGet [((some 97, some 98), some 256)] x = some (some i) →
      x = ((some 97, some 98) : MKey) := by
    intro x i hx
    by_cases hk : ((some 97, some 98) : MKey) = x
    · exact hk.symm
    · simp [mapGet, hk] at hx
  have huniq : ∀ (a b : MKey) (i : Int),
      mapGet [((some 97, some 98), some 256)] a = some (some i) →
      mapGet [((some 97, some 98), some 256)] b = some (some i) → a = b := by
    intro a b i ha hb
    rw [hkey a i ha, hkey b i hb]
  have h := (encode_merge_loop_spec [((some 97, some 98), some 256)] [97, 98, 97]
    huniq).2.1 (97, 98) 256 (by decide)
  exact ⟨h.1, h.2.2.2.2⟩

theorem append_cons_eq_of_not_mem {α : Type} [DecidableEq α] :
    ∀ (A C : List α) {x : α} {B D : List α},
      A ++ x :: B = C ++ x :: D → x ∉ A → x ∉ C → A = C ∧ B = D
  | [], [], x, B, D, h, _, _ => ⟨rfl, by simpa using h⟩
  | [], c :: C, x, B, D, h, _, hxC => by
    simp only [List.nil_append, List.cons_append, List.cons.injEq] at h
    have hmem : x ∈ c :: C := by rw [← h.1]; exact List.mem_cons_self x C
    exact absurd hmem hxC
  | a :: A, [], x, B, D, h, hxA, _ => by
    simp only [List.cons_append, List.nil_append, List.cons.injEq] at h
    have hmem : x ∈ a :: A := by rw [h.1]; exact List.mem_cons_self x A
    exact absurd hmem hxA
  | a :: A, c :: C, x, B, D, h, hxA, hxC => by
    simp only [List.cons_append, List.cons.injEq] at h
    obtain ⟨rfl, h2⟩ := h
    have := append_cons_eq_of_not_mem A C h2
      (fun hh => hxA (List.mem_cons_of_mem _ hh))
      (fun hh => hxC (List.mem_cons_of_mem _ hh))
    exact ⟨by rw [this.1], this.2⟩

theorem filter_split {α : Type} {p : α → Bool} {u v : List α} {x : α}
    (hx : p x = true) :
    (u ++ x :: v).filter p = u.filter p ++ x :: v.filter p := by
  rw [List.filter_append, List.filter_cons, if_pos hx]

theorem nodup_callEvents (i n : Nat) : (callEvents i n).Nodup := by
  unfold callEvents
  rw [List.nodup_cons]
  constructor
  · intro h
    rcases List.mem_append.mp h with h | h
    · rcases List.mem_map.mp h with ⟨k, _, hk⟩
      exact GenEvent.noConfusion hk
    · have := List.mem_singleton.mp h
      exact GenEvent.noConfusion this
  · rw [List.nodup_append]
    refine ⟨?_, List.nodup_singleton _, ?_⟩
    · exact List.Nodup.map (fun a b hab => by
        injection hab) (List.nodup_range n)
    · intro e he
      rcases List.mem_map.mp he with ⟨k, _, hk⟩
      subst hk
      intro hmem
      have := List.mem_singleton.mp hmem
      exact GenEvent.noConfusion this

theorem mem_inf_callEvents {i n k : Nat} (hk : k < n) :
    GenEvent.inf i k ∈ callEvents i n := by
  unfold callEvents
  exact List.mem_cons_of_mem _ (List.mem_append.mpr
    (Or.inl (List.mem_map.mpr ⟨k, List.mem_range.mpr hk, rfl⟩)))

theorem mem_rel_callEvents (i n : Nat) : GenEvent.rel i ∈ callEvents i n := by
  unfold callEvents
  exact List.mem_cons_of_mem _ (List.mem_append.mpr (Or.inr (List.mem_singleton.mpr rfl)))

theorem gateCheckAux_spec :
    ∀ (u : List GenEvent) {tr seen : List GenEvent} {i : Nat} {v : List GenEvent},
      gateCheckAux seen tr = true → tr = u ++ GenEvent.acq i :: v →
      ∀ j, j < i → GenEvent.rel j ∈ seen ∨ GenEvent.rel j ∈ u
  | [], tr, seen, i, v, hg, htr, j, hj => by
    subst htr
    rw [List.nil_append] at hg
    unfold gateCheckAux at hg
    rw [Bool.and_eq_true] at hg
    have hall := hg.1
    rw [List.all_eq_true] at hall
    have := hall j (List.mem_range.mpr hj)
    exact Or.inl (List.mem_of_elem_eq_true this)
  | e :: u, tr, seen, i, v, hg, htr, j, hj => by
    subst htr
    rw [List.cons_append] at hg
    unfold gateCheckAux at hg
    rw [Bool.and_eq_true] at hg
    have := gateCheckAux_spec u hg.2 rfl j hj
    rcases this with h | h
    · rcases List.mem_cons.mp h with h | h
      · exact Or.inr (h ▸ List.mem_cons_self e u)
      · exact Or.inl h
    · exact Or.inr (List.mem_cons_of_mem _ h)

theorem gateCheck_spec {tr : List GenEvent} (hg : gateCheck tr = true)
    {u : List GenEvent} {i : Nat} {v : List GenEvent}
    (htr : tr = u ++ GenEvent.acq i :: v) :
    ∀ j, j < i → GenEvent.rel j ∈ u := by
  intro j hj
  rcases gateCheckAux_spec u hg htr j hj with h | h
  · simp at h
  · exact h

/-- C2: in every valid interleaved trace of two queued generate calls (call 0
performing `n1` inference invocations, call 1 performing `n2`), every inference
invocation of call 0 occurs strictly before every inference invocation of
call 1: wherever an `inf 1 b` event sits in the trace, all `inf 0 a` events
already lie in the part of the trace before it.  The gate of the promise-chain
mutex forces call 1's acquisition after call 0's release, which in program
order follows all of call 0's invocations. -/
theorem generate_mutex_serialization (tr : List GenEvent) (n1 n2 : Nat)
    (h : ValidTrace tr [n1, n2]) (a b : Nat) (ha : a < n1)
    (u v : List GenEvent) (hsplit : tr = u ++ GenEvent.inf 1 b :: v) :
    GenEvent.inf 0 a ∈ u := by
  obtain ⟨hfil, _, hgate⟩ := h
  have hfil0 : tr.filter (belongsTo 0) = callEvents 0 n1 := by
    have := hfil 0 (by simp)
    simpa using this
  have hfil1 : tr.filter (belongsTo 1) = callEvents 1 n2 := by
    have := hfil 1 (by simp)
    simpa using this
  -- step 1: acq 1 occurs in u
  have hacq1u : GenEvent.acq 1 ∈ u := by
    have hdec : u.filter (belongsTo 1) ++ GenEvent.inf 1 b :: v.filter (belongsTo 1)
        = callEvents 1 n2 := by
      rw [← filter_split (by rfl), ← hsplit, hfil1]
    cases hu : u.filter (belongsTo 1) with
    | nil =>
      rw [hu, List.nil_append] at hdec
      unfold callEvents at hdec
      have := List.head_eq_of_cons_eq hdec
      exact absurd this (by intro hh; exact GenEvent.noConfusion hh)
    | cons e rest =>
      rw [hu] at hdec
      unfold callEvents at hdec
      rw [List.cons_append] at hdec
      have he : e = GenEvent.acq 1 := List.head_eq_of_cons_eq hdec
      have : e ∈ u.filter (belongsTo 1) := hu ▸ List.mem_cons_self e rest
      exact he ▸ List.mem_of_mem_filter this
  -- step 2: split u at acq 1
  obtain ⟨u1, u2, hu12⟩ := List.append_of_mem hacq1u
  -- step 3: the gate delivers rel 0 before acq 1
  have htr2 : tr = u1 ++ GenEvent.acq 1 :: (u2 ++ GenEvent.inf 1 b :: v) := by
    rw [hsplit, hu12]
    simp
  have hrel0 : GenEvent.rel 0 ∈ u1 := gateCheck_spec hgate htr2 0 (by omega)
  -- step 4: split u1 at rel 0
  obtain ⟨w1, w2, hw12⟩ := List.append_of_mem hrel0
  have htr3 : tr = w1 ++ GenEvent.rel 0 ::
      (w2 ++ GenEvent.acq 1 :: (u2 ++ GenEvent.inf 1 b :: v)) := by
    rw [htr2, hw12]
    simp
  -- step 5: all of call 0's inf events lie before rel 0
  have hdec0 : w1.filter (belongsTo 0) ++ GenEvent.rel 0 ::
      (w2 ++ GenEvent.acq 1 :: (u2 ++ GenEvent.inf 1 b :: v)).filter (belongsTo 0)
      = (GenEvent.acq 0 :: (List.range n1).map (GenEvent.inf 0)) ++
        GenEvent.rel 0 :: [] := by
    rw [← filter_split (by rfl), ← htr3, hfil0]
    unfold callEvents
    simp
  have hnotmem1 : GenEvent.rel 0 ∉ w1.filter (belongsTo 0) := by
    intro hmem
    have hcount : (tr.filter (belongsTo 0)).count (GenEvent.rel 0) = 1 :=
      hfil0 ▸ List.count_eq_one_of_mem (nodup_callEvents 0 n1) (mem_rel_callEvents 0 n1)
    rw [htr3, filter_split (by rfl)] at hcount
    rw [List.count_append, List.count_cons_self] at hcount
    have := List.count_pos_iff.mpr hmem
    omega
  have hnotmem2 : GenEvent.rel 0 ∉ GenEvent.acq 0 :: (List.range n1).map (GenEvent.inf 0) := by
    intro hmem
    rcases List.mem_cons.mp hmem with h | h
    · exact GenEvent.noConfusion h
    · rcases List.mem_map.mp h with ⟨k, _, hk⟩
      exact GenEvent.noConfusion hk
  have hw1f : w1.filter (belongsTo 0)
      = GenEvent.acq 0 :: (List.range n1).map (GenEvent.inf 0) :=
    (append_cons_eq_of_not_mem _ _ hdec0 hnotmem1 hnotmem2).1
  have hinfw1 : GenEvent.inf 0 a ∈ w1 := by
    have : GenEvent.inf 0 a ∈ w1.filter (belongsTo 0) := by
      rw [hw1f]
      exact List.mem_cons_of_mem _ (List.mem_map.mpr ⟨a, List.mem_range.mpr ha, rfl⟩)
    exact List.mem_of_mem_filter this
  -- step 6: w1 is an initial part of u
  rw [hu12, hw12]
  exact List.mem_append.mpr (Or.inl (List.mem_append.mpr (Or.inl hinfw1)))

/-- Witness for C2 at the serial trace of two one-step calls. -/
theorem generate_mutex_serialization_witness :
    GenEvent.inf 0 0 ∈ [GenEvent.acq 0, GenEvent.inf 0 0, GenEvent.rel 0,
      GenEvent.acq 1] :=
  generate_mutex_serialization
    [GenEvent.acq 0, GenEvent.inf 0 0, GenEvent.rel 0,
      GenEvent.acq 1, GenEvent.inf 1 0, GenEvent.rel 1]
    1 1 (by refine ⟨?_, ?_, ?_⟩ <;> decide) 0 0 (by decide)
    [GenEvent.acq 0, GenEvent.inf 0 0, GenEvent.rel 0, GenEvent.acq 1]
    [GenEvent.rel 1] rfl

theorem decodeSteps_succ (sess : SessionFn) (temperature : ℚ) (topK : Nat)
    (rands : Nat → ℚ) (expf : ℚ → ℚ) (fuel step : Nat) (toks gen : List Int) :
    decodeSteps sess temperature topK rands expf (fuel + 1) step toks gen =
      match sess toks with
      | Except.error e => Except.error e
      | Except.ok rows =>
        decodeSteps sess temperature topK rands expf fuel (step + 1)
          (toks ++ [Int.ofNat (sample (rows.getD (rows.length - 1) [])
            temperature topK (rands step) expf)])
          (gen ++ [Int.ofNat (sample (rows.getD (rows.length - 1) [])
            temperature topK (rands step) expf)]) := rfl

theorem decodeSteps_error {sess : SessionFn} {temperature : ℚ} {topK : Nat}
    {rands : Nat → ℚ} {expf : ℚ → ℚ} {k step : Nat} {toks : List Int} {e : String}
    (hfail : FailsAt sess temperature topK rands expf k step toks e) :
    ∀ (fuel : Nat) (gen : List Int), k < fuel →
      decodeSteps sess temperature topK rands expf fuel step toks gen
        = Except.error e := by
  induction hfail with
  | here step toks e herr =>
    intro fuel gen hk
    obtain ⟨f, rfl⟩ : ∃ f, fuel = f + 1 := ⟨fuel - 1, by omega⟩
    rw [decodeSteps_succ, herr]
  | later k step toks rows e hok _ ih =>
    intro fuel gen hk
    obtain ⟨f, rfl⟩ : ∃ f, fuel = f + 1 := ⟨fuel - 1, by omega⟩
    rw [decodeSteps_succ, hok]
    exact ih f _ (by omega)

theorem belongsTo_of_mem {e : GenEvent} {j m : Nat} (h : e ∈ callEvents j m)
    (i : Nat) : belongsTo i e = decide (j = i) := by
  unfold callEvents at h
  rcases List.mem_cons.mp h with rfl | h
  · rfl
  · rcases List.mem_append.mp h with h | h
    · rcases List.mem_map.mp h with ⟨k, _, rfl⟩; rfl
    · rw [List.mem_singleton.mp h]; rfl

theorem filter_callEvents_self (i n : Nat) :
    (callEvents i n).filter (belongsTo i) = callEvents i n :=
  List.filter_eq_self.mpr (fun e he => by rw [belongsTo_of_mem he i]; simp)

theorem filter_callEvents_other (i j n : Nat) (hij : j ≠ i) :
    (callEvents j n).filter (belongsTo i) = [] :=
  List.filter_eq_nil_iff.mpr (fun e he => by rw [belongsTo_of_mem he i]; simp [hij])

theorem gateCheckAux_cons (seen : List GenEvent) (e : GenEvent)
    (rest : List GenEvent) :
    gateCheckAux seen (e :: rest) =
      ((match e with
        | GenEvent.acq i => (List.range i).all (fun j => seen.contains (GenEvent.rel j))
        | _ => true) && gateCheckAux (e :: seen) rest) := rfl

theorem gateCheckAux_append (l1 l2 seen : List GenEvent) :
    gateCheckAux seen (l1 ++ l2)
      = (gateCheckAux seen l1 && gateCheckAux (l1.reverse ++ seen) l2) := by
  induction l1 generalizing seen with
  | nil => simp [gateCheckAux]
  | cons e rest ih =>
    rw [List.cons_append, gateCheckAux_cons, ih (e :: seen)]
    have hseen : rest.reverse ++ e :: seen = (e :: rest).reverse ++ seen := by
      simp
    rw [hseen, gateCheckAux_cons seen e rest, Bool.and_assoc]

theorem gateCheckAux_no_acq : ∀ {l seen : List GenEvent},
    (∀ i, GenEvent.acq i ∉ l) → gateCheckAux seen l = true := by
  intro l
  induction l with
  | nil => intro seen _; rfl
  | cons e rest ih =>
    intro seen h
    rw [gateCheckAux_cons, Bool.and_eq_true]
    constructor
    · cases e with
      | acq i => exact absurd (List.mem_cons_self _ _) (h i)
      | inf i k => rfl
      | rel i => rfl
    · exact ih (fun i hi => h i (List.mem_cons_of_mem _ hi))

theorem no_acq_callEvents_tail (i n : Nat) :
    ∀ j, GenEvent.acq j ∉ (List.range n).map (GenEvent.inf i) ++ [GenEvent.rel i] := by
  intro j hmem
  rcases List.mem_append.mp hmem with h | h
  · rcases List.mem_map.mp h with ⟨k, _, hk⟩
    exact GenEvent.noConfusion hk
  · exact GenEvent.noConfusion (List.mem_singleton.mp h)

theorem gateCheck_serial (k n : Nat) :
    gateCheck (callEvents 0 k ++ callEvents 1 n) = true := by
  unfold gateCheck
  rw [gateCheckAux_append, Bool.and_eq_true]
  constructor
  · show gateCheckAux [] (GenEvent.acq 0 ::
      ((List.range k).map (GenEvent.inf 0) ++ [GenEvent.rel 0])) = true
    rw [gateCheckAux_cons, Bool.and_eq_true]
    exact ⟨rfl, gateCheckAux_no_acq (no_acq_callEvents_tail 0 k)⟩
  · show gateCheckAux ((callEvents 0 k).reverse ++ []) (GenEvent.acq 1 ::
      ((List.range n).map (GenEvent.inf 1) ++ [GenEvent.rel 1])) = true
    rw [gateCheckAux_cons, Bool.and_eq_true]
    constructor
    · have hmem : GenEvent.rel 0 ∈ (callEvents 0 k).reverse ++ [] := by
        rw [List.append_nil, List.mem_reverse]
        exact mem_rel_callEvents 0 k
      rw [List.all_eq_true]
      intro j hj
      have hj0 : j = 0 := by
        have := List.mem_range.mp hj
        omega
      subst hj0
      exact List.elem_iff.mpr hmem
    · exact gateCheckAux_no_acq (no_acq_callEvents_tail 1 n)

theorem validTrace_serial (k n : Nat) :
    ValidTrace (callEvents 0 k ++ callEvents 1 n) [k, n] := by
  refine ⟨?_, ?_, gateCheck_serial k n⟩
  · intro i hi
    have h2 : i = 0 ∨ i = 1 := by simp at hi; omega
    rcases h2 with rfl | rfl
    · rw [List.filter_append, filter_callEvents_self,
        filter_callEvents_other 0 1 n (by omega), List.append_nil]
      rfl
    · rw [List.filter_append, filter_callEvents_self,
        filter_callEvents_other 1 0 k (by omega), List.nil_append]
      rfl
  · rw [List.all_eq_true]
    intro e he
    rw [List.any_eq_true]
    rcases List.mem_append.mp he with h | h
    · exact ⟨0, by simp, by rw [belongsTo_of_mem h 0]; simp⟩
    · exact ⟨1, by simp, by rw [belongsTo_of_mem h 1]; simp⟩

/-- C8: if the inference session raises during some decode step of a generate
call, the error propagates unchanged to that caller (the spec taxonomy's
InferenceFailure), the partial tokens already sampled in that call are
discarded — the result is the bare error, nothing is decoded or returned — and
the mutex is still released: the serial trace in which the failed call (k
completed invocations) releases and the queued call then performs all of its
own invocations is a valid trace of the mutex model. -/
theorem inference_failure_atomicity :
    (∀ (t : BPETokenizer) (sess : SessionFn) (maxTokens : Nat) (temperature : ℚ)
      (topK : Nat) (rands : Nat → ℚ) (expf : ℚ → ℚ) (prompt : String)
      (k : Nat) (e : String),
      FailsAt sess temperature topK rands expf k 0 (t.encode prompt).1 e →
      k < maxTokens →
      generateResult t sess maxTokens temperature topK rands expf prompt
        = Except.error e)
    ∧ (∀ k n : Nat, ValidTrace (callEvents 0 k ++ callEvents 1 n) [k, n]) := by
  constructor
  · intro t sess maxTokens temperature topK rands expf prompt k e hfail hk
    show (decodeSteps sess temperature topK rands expf maxTokens 0
      (t.encode prompt).1 []).map (fun gen => t.decode gen) = Except.error e
    rw [decodeSteps_error hfail maxTokens [] hk]
    rfl
  · exact validTrace_serial

/-- Witness for C8: a session that throws on its first invocation makes a
one-token generate return exactly that error, and the serial trace with the
queued second call remains valid. -/
theorem inference_failure_atomicity_witness :
    generateResult BPETokenizer.mkNew (fun _ => Except.error "boom") 1 1 1
      (fun _ => 0) (fun _ => 1) "ab" = Except.error "boom"
    ∧ ValidTrace (callEvents 0 0 ++ callEvents 1 1) [0, 1] :=
  ⟨inference_failure_atomicity.1 BPETokenizer.mkNew (fun _ => Except.error "boom")
      1 1 1 (fun _ => 0) (fun _ => 1) "ab" 0 "boom"
      (FailsAt.here 0 _ "boom" rfl) (by omega),
    inference_failure_atomicity.2 0 1⟩

theorem dpos (temperature : ℚ) : 0 < max temperature (1 / 100000000) :=
  lt_of_lt_of_le (by norm_num) (le_max_right _ _)

theorem scaledOf_length (logits : List ℚ) (temperature : ℚ) :
    (scaledOf logits temperature).length = logits.length := by
  unfold scaledOf
  simp

theorem getD_map {α β : Type} (f : α → β) {l : List α} {j : Nat} (hj : j < l.length)
    (d : β) (d' : α) : (l.map f).getD j d = f (l.getD j d') := by
  rw [List.getD_eq_getElem _ _ (by simpa using hj), List.getElem_map,
    List.getD_eq_getElem _ _ hj]

theorem getD_map_range {α : Type} (f : Nat → α) (d : α) {n j : Nat} (hj : j < n) :
    ((List.range n).map f).getD j d = f j := by
  rw [getD_map f (by simpa using hj) d 0, List.getD_eq_getElem _ _ (by simpa using hj),
    List.getElem_range]

theorem scaledOf_getD {logits : List ℚ} (temperature : ℚ) {i : Nat}
    (hi : i < logits.length) :
    (scaledOf logits temperature).getD i 0
      = logits.getD i 0 / max temperature (1 / 100000000) := by
  unfold scaledOf
  rw [getD_map _ hi 0 0]

theorem scaled_lt_iff {logits : List ℚ} (temperature : ℚ) {i j : Nat}
    (hi : i < logits.length) (hj : j < logits.length) :
    ((scaledOf logits temperature).getD j 0 < (scaledOf logits temperature).getD i 0)
      ↔ logits.getD j 0 < logits.getD i 0 := by
  rw [scaledOf_getD temperature hi, scaledOf_getD temperature hj]
  exact div_lt_div_iff_of_pos_right (dpos temperature)

theorem sortedIndices_perm (scaled : List ℚ) :
    (sortedIndices scaled).Perm (List.range scaled.length) :=
  List.mergeSort_perm _ _

theorem sortedIndices_length (scaled : List ℚ) :
    (sortedIndices scaled).length = scaled.length := by
  rw [(sortedIndices_perm scaled).length_eq, List.length_range]

theorem sortedIndices_mem {scaled : List ℚ} {i : Nat} :
    i ∈ sortedIndices scaled ↔ i < scaled.length := by
  rw [(sortedIndices_perm scaled).mem_iff, List.mem_range]

theorem sortedIndices_sorted_getElem (scaled : List ℚ) :
    ∀ (p q : Nat) (hp : p < (sortedIndices scaled).length)
      (hq : q < (sortedIndices scaled).length), p < q →
      scaled.getD ((sortedIndices scaled).get ⟨q, hq⟩) 0
        ≤ scaled.getD ((sortedIndices scaled).get ⟨p, hp⟩) 0 := by
  have h := @List.sorted_mergeSort Nat
    (fun a b => decide (scaled.getD b 0 ≤ scaled.getD a 0))
    (fun a b c hab hbc => by
      simp only [decide_eq_true_eq] at hab hbc ⊢
      exact le_trans hbc hab)
    (fun a b => by
      simp only [Bool.or_eq_true, decide_eq_true_eq]
      exact le_total _ _)
    (List.range scaled.length)
  rw [List.pairwise_iff_getElem] at h
  intro p q hp hq hpq
  have h2 := h p q (by simpa [sortedIndices] using hp) (by simpa [sortedIndices] using hq) hpq
  simpa [sortedIndices] using h2

theorem mem_take_iff_getElem {α : Type} {l : List α} {k : Nat} {a : α} :
    a ∈ l.take k ↔ ∃ (p : Nat) (hp : p < l.length), p < k ∧ l.get ⟨p, hp⟩ = a := by
  rw [List.mem_iff_getElem]
  constructor
  · rintro ⟨p, hp, hpa⟩
    have hlt := hp
    rw [List.length_take] at hlt
    refine ⟨p, by omega, by omega, ?_⟩
    rw [← hpa, List.get_eq_getElem, List.getElem_take]
  · rintro ⟨p, hp, hpk, hpa⟩
    refine ⟨p, by rw [List.length_take]; omega, ?_⟩
    rw [List.getElem_take]
    exact hpa

theorem filteredOf_eq_branch {scaled : List ℚ} {topK : Nat}
    (hcond : 0 < topK ∧ topK < scaled.length) :
    filteredOf scaled topK = (List.range scaled.length).map
      (fun i => if i ∈ (sortedIndices scaled).take topK
        then some (scaled.getD i 0) else none) := by
  unfold filteredOf
  rw [if_pos hcond]

theorem filteredOf_eq_nofilter {scaled : List ℚ} {topK : Nat}
    (hcond : ¬(0 < topK ∧ topK < scaled.length)) :
    filteredOf scaled topK = scaled.map some := by
  unfold filteredOf
  rw [if_neg hcond]

theorem filteredOf_length (scaled : List ℚ) (topK : Nat) :
    (filteredOf scaled topK).length = scaled.length := by
  unfold filteredOf
  split <;> simp

theorem probsOf_eq (filtered : List (Option ℚ)) (expf : ℚ → ℚ) :
    probsOf filtered expf = filtered.map
      (fun x =>
        match x, maxLogitOf filtered with
        | some v, some mx => expf (v - mx)
        | _, _ => 0) := rfl

theorem probsOf_length (filtered : List (Option ℚ)) (expf : ℚ → ℚ) :
    (probsOf filtered expf).length = filtered.length := by
  rw [probsOf_eq]
  simp

theorem probsOf_nonneg {filtered : List (Option ℚ)} {expf : ℚ → ℚ}
    (hexp : ∀ x, 0 < expf x) : ∀ y ∈ probsOf filtered expf, 0 ≤ y := by
  intro y hy
  rw [probsOf_eq] at hy
  rcases List.mem_map.mp hy with ⟨x, _, rfl⟩
  cases x with
  | none => exact le_refl 0
  | some v =>
    cases hm : maxLogitOf filtered with
    | none => exact le_refl 0
    | some mx => exact le_of_lt (hexp _)

theorem maxLogit_fold_none :
    ∀ (l : List (Option ℚ)) (acc : Option ℚ),
      l.foldl
        (fun acc x =>
          match acc, x with
          | none, _ => x
          | some m, some v => if m < v then some v else some m
          | some m, none => some m)
        acc = none →
      acc = none ∧ ∀ x ∈ l, x = none
  | [], acc, h => ⟨h, by intro x hx; simp at hx⟩
  | x :: rest, acc, h => by
    rw [List.foldl_cons] at h
    have ih := maxLogit_fold_none rest _ h
    have hstep : acc = none ∧ x = none := by
      rcases ih with ⟨hs, _⟩
      cases acc with
      | none =>
        cases x with
        | none => exact ⟨rfl, rfl⟩
        | some v =>
          have hs' : (some v : Option ℚ) = none := hs
          exact absurd hs' (by simp)
      | some m =>
        cases x with
        | none =>
          have hs' : (some m : Option ℚ) = none := hs
          exact absurd hs' (by simp)
        | some v =>
          have hs' : (if m < v then some v else some m) = (none : Option ℚ) := hs
          by_cases hmv : m < v
          · rw [if_pos hmv] at hs'; exact absurd hs' (by simp)
          · rw [if_neg hmv] at hs'; exact absurd hs' (by simp)
    refine ⟨hstep.1, ?_⟩
    intro y hy
    rcases List.mem_cons.mp hy with rfl | hy
    · exact hstep.2
    · exact ih.2 y hy

theorem maxLogitOf_some_of_mem {filtered : List (Option ℚ)} {v : ℚ}
    (h : some v ∈ filtered) : ∃ m, maxLogitOf filtered = some m := by
  cases hm : maxLogitOf filtered with
  | none =>
    have := (maxLogit_fold_none filtered none hm).2 (some v) h
    exact absurd this (by simp)
  | some m => exact ⟨m, rfl⟩

theorem walkFrom_cons (r p cum : ℚ) (i : Nat) (rest : List ℚ) :
    walkFrom r (p :: rest) cum i
      = if r < cum + p then some i else walkFrom r rest (cum + p) (i + 1) := rfl

theorem walkFrom_ge {r : ℚ} :
    ∀ {l : List ℚ} {cum : ℚ} {i m : Nat}, walkFrom r l cum i = some m → i ≤ m := by
  intro l
  induction l with
  | nil => intro cum i m h; exact absurd h (by simp [walkFrom])
  | cons p rest ih =>
    intro cum i m h
    rw [walkFrom_cons] at h
    by_cases hc : r < cum + p
    · rw [if_pos hc] at h
      exact (Option.some.inj h) ▸ Nat.le_refl i
    · rw [if_neg hc] at h
      have := ih h
      omega

theorem walkFrom_pos {r : ℚ} :
    ∀ {l : List ℚ} {cum : ℚ} {i m : Nat}, cum ≤ r → walkFrom r l cum i = some m →
      0 < l.getD (m - i) 0 := by
  intro l
  induction l with
  | nil => intro cum i m _ h; exact absurd h (by simp [walkFrom])
  | cons p rest ih =>
    intro cum i m hcum h
    rw [walkFrom_cons] at h
    by_cases hc : r < cum + p
    · rw [if_pos hc] at h
      have hm : m = i := (Option.some.inj h).symm
      subst hm
      simp only [Nat.sub_self, List.getD]
      have : 0 < p := by linarith
      simpa using this
    · rw [if_neg hc] at h
      have hcum2 : cum + p ≤ r := le_of_not_lt hc
      have hge := walkFrom_ge h
      have := ih hcum2 h
      have hmi : m - i = (m - (i + 1)) + 1 := by omega
      rw [hmi]
      simpa using this

theorem walkFrom_total {r : ℚ} :
    ∀ {l : List ℚ} {cum : ℚ} {i : Nat}, cum ≤ r → r < cum + l.sum →
      ∃ m, walkFrom r l cum i = some m := by
  intro l
  induction l with
  | nil =>
    intro cum i hcum hlt
    rw [List.sum_nil, add_zero] at hlt
    linarith
  | cons p rest ih =>
    intro cum i hcum hlt
    rw [walkFrom_cons]
    by_cases hc : r < cum + p
    · exact ⟨i, if_pos hc⟩
    · rw [if_neg hc]
      apply ih (le_of_not_lt hc)
      rw [List.sum_cons] at hlt
      linarith

theorem walkFrom_single {r : ℚ} :
    ∀ (jpos : Nat) (l : List ℚ) (cum : ℚ) (i : Nat), cum ≤ r →
      (∀ q, q < jpos → l.getD q 0 = 0) → jpos < l.length →
      r < cum + l.getD jpos 0 → walkFrom r l cum i = some (i + jpos)
  | 0, l, cum, i, _, _, hlen, htarget => by
    obtain ⟨p, rest, hl⟩ := List.exists_cons_of_ne_nil
      (List.ne_nil_of_length_pos hlen)
    subst hl
    rw [walkFrom_cons]
    rw [show (p :: rest).getD 0 0 = p from rfl] at htarget
    rw [if_pos htarget]
    simp
  | jpos + 1, l, cum, i, hcum, hz, hlen, htarget => by
    have hl0 : 0 < l.length := by omega
    obtain ⟨p, rest, hl⟩ := List.exists_cons_of_ne_nil
      (List.ne_nil_of_length_pos hl0)
    subst hl
    have hp0 : p = 0 := by
      have := hz 0 (by omega)
      simpa using this
    subst hp0
    rw [walkFrom_cons, add_zero, if_neg (by linarith)]
    have hres := walkFrom_single jpos rest cum (i + 1) hcum
      (fun q hq => by
        have := hz (q + 1) (by omega)
        simpa using this)
      (by simpa using hlen)
      (by
        rw [show (((0:ℚ)) :: rest).getD (jpos + 1) 0 = rest.getD jpos 0 from rfl] at htarget
        exact htarget)
    rw [hres]
    congr 1
    omega

theorem sum_map_single (c : ℚ) :
    ∀ (n jmax : Nat), jmax < n →
      (((List.range n).map (fun i => if i = jmax then c else 0)).sum) = c := by
  intro n
  induction n with
  | zero => intro jmax h; omega
  | succ n ih =>
    intro jmax hjm
    rw [List.range_succ, List.map_append, List.sum_append]
    rcases Nat.lt_or_ge jmax n with hlt | hge
    · rw [ih jmax hlt]
      have : n ≠ jmax := by omega
      simp [this]
    · have hjn : jmax = n := by omega
      subst hjn
      have hzero : (((List.range jmax).map (fun i => if i = jmax then c else 0)).sum) = 0 := by
        apply List.sum_eq_zero
        intro x hx
        rcases List.mem_map.mp hx with ⟨i, hi, rfl⟩
        have : i ≠ jmax := by
          have := List.mem_range.mp hi
          omega
        simp [this]
      rw [hzero]
      simp

theorem take_one_eq_get {α : Type} (l : List α) (h : 0 < l.length) :
    l.take 1 = [l.get ⟨0, h⟩] := by
  obtain ⟨x, rest, rfl⟩ := List.exists_cons_of_ne_nil (List.ne_nil_of_length_pos h)
  rfl

theorem sample_eq_walk (logits : List ℚ) (temperature : ℚ) (topK : Nat) (rand : ℚ)
    (expf : ℚ → ℚ) :
    sample logits temperature topK rand expf
      = (walkFrom
          (rand * (probsOf (filteredOf (scaledOf logits temperature) topK) expf).sum)
          (probsOf (filteredOf (scaledOf logits temperature) topK) expf) 0 0).getD
        ((probsOf (filteredOf (scaledOf logits temperature) topK) expf).length - 1) := rfl

theorem notKeep_of_countGreater (logits : List ℚ) (temperature : ℚ) (topK : Nat)
    {j : Nat} (hj : j < logits.length) (hcnt : topK ≤ countGreater logits j) :
    j ∉ (sortedIndices (scaledOf logits temperature)).take topK := by
  intro hjk
  have hslen : (scaledOf logits temperature).length = logits.length :=
    scaledOf_length logits temperature
  obtain ⟨p, hplen, hpk, hpj⟩ := mem_take_iff_getElem.mp hjk
  have hSsub : ((List.range logits.length).filter
      (fun i => decide (logits.getD j 0 < logits.getD i 0)))
      ⊆ (sortedIndices (scaledOf logits temperature)).take p := by
    intro s hs
    have hsn : s < logits.length := List.mem_range.mp (List.mem_filter.mp hs).1
    have hslt : logits.getD j 0 < logits.getD s 0 := by
      have := (List.mem_filter.mp hs).2
      simpa using this
    have hsmem : s ∈ sortedIndices (scaledOf logits temperature) :=
      sortedIndices_mem.mpr (by rw [hslen]; exact hsn)
    obtain ⟨q, hqlen, hqs⟩ := List.mem_iff_getElem.mp hsmem
    have hqs2 : (sortedIndices (scaledOf logits temperature)).get ⟨q, hqlen⟩ = s := by
      rw [List.get_eq_getElem]
      exact hqs
    have hqp : q < p := by
      by_contra hqple
      push_neg at hqple
      rcases Nat.eq_or_lt_of_le hqple with heq | hlt
      · subst heq
        have hsj : s = j := by rw [← hqs2, ← hpj]
        rw [hsj] at hslt
        exact absurd hslt (lt_irrefl _)
      · have hsorted := sortedIndices_sorted_getElem (scaledOf logits temperature)
          p q hplen hqlen hlt
        rw [hqs2, hpj] at hsorted
        have hscaled := (scaled_lt_iff temperature hsn hj).mpr hslt
        linarith
    exact mem_take_iff_getElem.mpr ⟨q, hqlen, hqp, hqs2⟩
  have hSnodup : ((List.range logits.length).filter
      (fun i => decide (logits.getD j 0 < logits.getD i 0))).Nodup :=
    (List.nodup_range _).filter _
  have hsub := (List.subperm_of_subset hSnodup hSsub).length_le
  rw [List.length_take] at hsub
  have hcg : countGreater logits j = ((List.range logits.length).filter
      (fun i => decide (logits.getD j 0 < logits.getD i 0))).length := rfl
  rw [hcg] at hcnt
  have hil : (sortedIndices (scaledOf logits temperature)).length = logits.length := by
    rw [sortedIndices_length, hslen]
  omega

theorem probs_sum_pos (logits : List ℚ) (temperature : ℚ) (topK : Nat)
    (expf : ℚ → ℚ) (hexp : ∀ x, 0 < expf x)
    (hcond : 0 < topK ∧ topK < (scaledOf logits temperature).length) :
    0 < (probsOf (filteredOf (scaledOf logits temperature) topK) expf).sum := by
  have hflen : (filteredOf (scaledOf logits temperature) topK).length
      = (scaledOf logits temperature).length := filteredOf_length _ _
  have hkeeplen : 0 < ((sortedIndices (scaledOf logits temperature)).take topK).length := by
    rw [List.length_take, sortedIndices_length]
    omega
  obtain ⟨i0, hi0⟩ := List.exists_mem_of_length_pos hkeeplen
  have hi0mem : i0 ∈ sortedIndices (scaledOf logits temperature) :=
    List.mem_of_mem_take hi0
  have hi0n : i0 < (scaledOf logits temperature).length := sortedIndices_mem.mp hi0mem
  have hfi0 : (filteredOf (scaledOf logits temperature) topK).getD i0 none
      = some ((scaledOf logits temperature).getD i0 0) := by
    rw [filteredOf_eq_branch hcond, getD_map_range _ _ hi0n, if_pos hi0]
  have hfi0mem : some ((scaledOf logits temperature).getD i0 0)
      ∈ filteredOf (scaledOf logits temperature) topK := by
    rw [← hfi0, List.getD_eq_getElem _ _ (by rw [hflen]; exact hi0n)]
    exact List.getElem_mem _
  obtain ⟨mx, hmx⟩ := maxLogitOf_some_of_mem hfi0mem
  have hpi0 : (probsOf (filteredOf (scaledOf logits temperature) topK) expf).getD i0 0
      = expf ((scaledOf logits temperature).getD i0 0 - mx) := by
    rw [probsOf_eq, getD_map _ (by rw [hflen]; exact hi0n) 0 none, hfi0, hmx]
  have hpi0mem : (probsOf (filteredOf (scaledOf logits temperature) topK) expf).getD i0 0
      ∈ probsOf (filteredOf (scaledOf logits temperature) topK) expf := by
    rw [List.getD_eq_getElem _ _ (by rw [probsOf_length, hflen]; exact hi0n)]
    exact List.getElem_mem _
  have h1 : 0 < (probsOf (filteredOf (scaledOf logits temperature) topK) expf).getD i0 0 := by
    rw [hpi0]
    exact hexp _
  exact lt_of_lt_of_le h1 (List.single_le_sum (probsOf_nonneg hexp) _ hpi0mem)

theorem sortedIndices_head_eq_argmax (logits : List ℚ) (temperature : ℚ) {jmax : Nat}
    (hjmax : jmax < logits.length)
    (hmax : ∀ j, j < logits.length → j ≠ jmax → logits.getD j 0 < logits.getD jmax 0)
    (h0 : 0 < (sortedIndices (scaledOf logits temperature)).length) :
    (sortedIndices (scaledOf logits temperature)).get ⟨0, h0⟩ = jmax := by
  have hslen : (scaledOf logits temperature).length = logits.length :=
    scaledOf_length logits temperature
  by_contra hne
  have hh0mem : (sortedIndices (scaledOf logits temperature)).get ⟨0, h0⟩
      ∈ sortedIndices (scaledOf logits temperature) := List.get_mem _ _ _
  have hh0n : (sortedIndices (scaledOf logits temperature)).get ⟨0, h0⟩ < logits.length := by
    have := sortedIndices_mem.mp hh0mem
    omega
  obtain ⟨q, hqlen, hq⟩ := List.mem_iff_getElem.mp
    (sortedIndices_mem.mpr (show jmax < (scaledOf logits temperature).length by
      rw [hslen]; exact hjmax))
  have hq2 : (sortedIndices (scaledOf logits temperature)).get ⟨q, hqlen⟩ = jmax := by
    rw [List.get_eq_getElem]
    exact hq
  have hq0 : 0 < q := by
    rcases Nat.eq_zero_or_pos q with rfl | h
    · exact absurd (by rw [← hq2]) hne
    · exact h
  have hsorted := sortedIndices_sorted_getElem (scaledOf logits temperature)
    0 q h0 hqlen hq0
  rw [hq2] at hsorted
  have hlt := hmax _ hh0n hne
  have := (scaled_lt_iff temperature hjmax hh0n).mpr hlt
  linarith

/-- C7: top-K filtering soundness of the sampler (over the exact-rational model
of the Float32 arithmetic, with the Math.random draw `rand` in [0, 1) and
Math.exp modelled by any strictly positive `expf`).  Every entry with at least
`topK` strictly higher-scoring entries — i.e., every entry outside the topK
highest-scoring ones — receives exactly zero probability mass and is never
returned; and with topK = 1 and a unique highest-scoring entry, sample returns
that entry's index regardless of temperature. -/
theorem sample_topk_soundness (logits : List ℚ) (temperature : ℚ) (topK : Nat)
    (rand : ℚ) (expf : ℚ → ℚ) (hr0 : 0 ≤ rand) (hr1 : rand < 1)
    (hexp : ∀ x, 0 < expf x) :
    (∀ j, j < logits.length → 0 < topK → topK < logits.length →
      topK ≤ countGreater logits j →
      (probsOf (filteredOf (scaledOf logits temperature) topK) expf).getD j 0 = 0
      ∧ sample logits temperature topK rand expf ≠ j)
    ∧ (∀ jmax, jmax < logits.length →
      (∀ j, j < logits.length → j ≠ jmax →
        logits.getD j 0 < logits.getD jmax 0) →
      sample logits temperature 1 rand expf = jmax) := by
  constructor
  · intro j hj hk1 hk2 hcnt
    have hslen : (scaledOf logits temperature).length = logits.length :=
      scaledOf_length logits temperature
    have hcond : 0 < topK ∧ topK < (scaledOf logits temperature).length :=
      ⟨hk1, by rw [hslen]; exact hk2⟩
    have hjnotkeep := notKeep_of_countGreater logits temperature topK hj hcnt
    have hjslen : j < (scaledOf logits temperature).length := by rw [hslen]; exact hj
    have hflen : (filteredOf (scaledOf logits temperature) topK).length
        = (scaledOf logits temperature).length := filteredOf_length _ _
    have hfj : (filteredOf (scaledOf logits temperature) topK).getD j none = none := by
      rw [filteredOf_eq_branch hcond, getD_map_range _ _ hjslen, if_neg hjnotkeep]
    have hprobsj : (probsOf (filteredOf (scaledOf logits temperature) topK) expf).getD j 0
        = 0 := by
      rw [probsOf_eq, getD_map _ (by rw [hflen]; exact hjslen) 0 none, hfj]
    refine ⟨hprobsj, ?_⟩
    have hsumpos := probs_sum_pos logits temperature topK expf hexp hcond
    have hr0' : 0 ≤ rand *
        (probsOf (filteredOf (scaledOf logits temperature) topK) expf).sum :=
      mul_nonneg hr0 (le_of_lt hsumpos)
    have hrlt : rand *
        (probsOf (filteredOf (scaledOf logits temperature) topK) expf).sum
        < 0 + (probsOf (filteredOf (scaledOf logits temperature) topK) expf).sum := by
      rw [zero_add]
      have := mul_lt_mul_of_pos_right hr1 hsumpos
      rwa [one_mul] at this
    obtain ⟨m, hm⟩ := walkFrom_total hr0' hrlt
    have hsample : sample logits temperature topK rand expf = m := by
      rw [sample_eq_walk, hm]
      rfl
    rw [hsample]
    intro heq
    subst heq
    have hpos := walkFrom_pos hr0' hm
    rw [Nat.sub_zero] at hpos
    rw [hprobsj] at hpos
    exact absurd hpos (lt_irrefl 0)
  · intro jmax hjmax hmax
    have hslen : (scaledOf logits temperature).length = logits.length :=
      scaledOf_length logits temperature
    by_cases hn : 1 < logits.length
    · -- filtering branch
      have hcond : 0 < 1 ∧ 1 < (scaledOf logits temperature).length :=
        ⟨Nat.one_pos, by rw [hslen]; exact hn⟩
      have h0 : 0 < (sortedIndices (scaledOf logits temperature)).length := by
        rw [sortedIndices_length, hslen]
        omega
      have hhead := sortedIndices_head_eq_argmax logits temperature hjmax hmax h0
      have hkeep1 : (sortedIndices (scaledOf logits temperature)).take 1 = [jmax] := by
        rw [take_one_eq_get _ h0, hhead]
      have hfeq2 : filteredOf (scaledOf logits temperature) 1
          = (List.range (scaledOf logits temperature).length).map
            (fun i => if i = jmax then some ((scaledOf logits temperature).getD i 0)
              else none) := by
        rw [filteredOf_eq_branch hcond, hkeep1]
        apply List.map_congr_left
        intro a _
        by_cases haj : a = jmax
        · rw [if_pos (List.mem_singleton.mpr haj), if_pos haj, haj]
        · rw [if_neg (fun hh => haj (List.mem_singleton.mp hh)), if_neg haj]
      have hjmaxs : jmax < (scaledOf logits temperature).length := by
        rw [hslen]
        exact hjmax
      have hflen : (filteredOf (scaledOf logits temperature) 1).length
          = (scaledOf logits temperature).length := filteredOf_length _ _
      have hfjmax : (filteredOf (scaledOf logits temperature) 1).getD jmax none
          = some ((scaledOf logits temperature).getD jmax 0) := by
        rw [hfeq2, getD_map_range _ _ hjmaxs, if_pos rfl]
      have hfjmaxmem : some ((scaledOf logits temperature).getD jmax 0)
          ∈ filteredOf (scaledOf logits temperature) 1 := by
        rw [← hfjmax, List.getD_eq_getElem _ _ (by rw [hflen]; exact hjmaxs)]
        exact List.getElem_mem _
      obtain ⟨mx, hmx⟩ := maxLogitOf_some_of_mem hfjmaxmem
      have hpeq : probsOf (filteredOf (scaledOf logits temperature) 1) expf
          = (List.range (scaledOf logits temperature).length).map
            (fun i => if i = jmax
              then expf ((scaledOf logits temperature).getD jmax 0 - mx) else 0) := by
        rw [probsOf_eq, hmx, hfeq2, List.map_map]
        apply List.map_congr_left
        intro a _
        by_cases haj : a = jmax
        · subst haj
          simp [Function.comp_apply]
        · simp [Function.comp_apply, haj]
      have hplen : (probsOf (filteredOf (scaledOf logits temperature) 1) expf).length
          = (scaledOf logits temperature).length := by
        rw [probsOf_length, hflen]
      have hsum : (probsOf (filteredOf (scaledOf logits temperature) 1) expf).sum
          = expf ((scaledOf logits temperature).getD jmax 0 - mx) := by
        rw [hpeq]
        exact sum_map_single _ _ _ hjmaxs
      have hpjmax : (probsOf (filteredOf (scaledOf logits temperature) 1) expf).getD jmax 0
          = expf ((scaledOf logits temperature).getD jmax 0 - mx) := by
        rw [hpeq, getD_map_range _ _ hjmaxs, if_pos rfl]
      have hsumpos : 0 < (probsOf (filteredOf (scaledOf logits temperature) 1) expf).sum := by
        rw [hsum]
        exact hexp _
      have hwalk := walkFrom_single jmax
        (probsOf (filteredOf (scaledOf logits temperature) 1) expf)
        0 0
        (mul_nonneg hr0 (le_of_lt hsumpos))
        (fun q hq => by
          rw [hpeq, getD_map_range _ _ (by omega : q < (scaledOf logits temperature).length),
            if_neg (by omega : ¬ q = jmax)])
        (by rw [hplen]; exact hjmaxs)
        (by
          rw [hpjmax, zero_add, ← hsum]
          have := mul_lt_mul_of_pos_right hr1 hsumpos
          rwa [one_mul] at this)
      rw [sample_eq_walk, hwalk]
      simp
    · -- no-filtering branch: logits has exactly one entry
      have hn1 : logits.length = 1 := by omega
      have hjmax0 : jmax = 0 := by omega
      obtain ⟨x, hx⟩ := List.length_eq_one.mp hn1
      subst hx hjmax0
      have hncond : ¬(0 < 1 ∧ 1 < (scaledOf [x] temperature).length) := by
        rw [scaledOf_length]
        simp
      have hfeq : filteredOf (scaledOf [x] temperature) 1
          = [some (x / max temperature (1 / 100000000))] := by
        rw [filteredOf_eq_nofilter hncond]
        rfl
      have hmaxl : maxLogitOf (filteredOf (scaledOf [x] temperature) 1)
          = some (x / max temperature (1 / 100000000)) := by
        rw [hfeq]
        rfl
      have hpeq : probsOf (filteredOf (scaledOf [x] temperature) 1) expf
          = [expf (x / max temperature (1 / 100000000)
              - x / max temperature (1 / 100000000))] := by
        rw [probsOf_eq, hmaxl, hfeq]
        rfl
      have hsum : (probsOf (filteredOf (scaledOf [x] temperature) 1) expf).sum
          = expf (x / max temperature (1 / 100000000)
              - x / max temperature (1 / 100000000)) := by
        rw [hpeq, List.sum_cons, List.sum_nil, add_zero]
      have hsumpos : 0 < (probsOf (filteredOf (scaledOf [x] temperature) 1) expf).sum := by
        rw [hsum]
        exact hexp _
      rw [sample_eq_walk, hpeq]
      rw [walkFrom_cons]
      rw [if_pos (by
        rw [← hpeq, zero_add]
        have hlt := mul_lt_mul_of_pos_right hr1 hsumpos
        rw [one_mul] at hlt
        calc rand * (probsOf (filteredOf (scaledOf [x] temperature) 1) expf).sum
            < (probsOf (filteredOf (scaledOf [x] temperature) 1) expf).sum := hlt
          _ = _ := hsum)]
      rfl

/-- Witness for C7 with logits [0.1, 5.0, 0.2], temperature 0.8, topK 1,
a draw of 1/2 and a constant positive stand-in for Math.exp: sample returns
index 1, the unique argmax. -/
theorem sample_topk_soundness_witness :
    sample [1/10, 5, 2/10] (8/10) 1 (1/2) (fun _ => 1) = 1 :=
  (sample_topk_soundness [1/10, 5, 2/10] (8/10) 1 (1/2) (fun _ => 1)
    (by norm_num) (by norm_num) (fun _ => by norm_num)).2 1 (by norm_num)
    (by
      intro j hj hne
      simp only [List.length_cons, List.length_nil] at hj
      interval_cases j
      · norm_num [List.getD]
      · exact absurd rfl hne
      · norm_num [List.getD])

end BitAstro
